import Mathlib

/-!
# Emoji lookup (`src/emoji.h`): embedding and verified properties

A `std::string` is a sequence of bytes, embedded as a list of natural numbers
(each below 256 for strings that come from real input).  The C++ `int` locals of
`EmojiLoader::search` are embedded as mathematical integers: signed overflow is
undefined behaviour in C++, and it is out of reach for triggers shorter than ten
thousand bytes (the largest score term is `20 * (1 + 2 + ... + n)`).
-/

namespace Emoji

/-- A byte string (`std::string`, `std::string_view`). -/
abbrev Str := List Nat

/-- The bytes of an ASCII literal. -/
def ascii (s : String) : Str := s.toList.map Char.toNat

/-- The C++ `struct EmojiEntry`. -/
structure EmojiEntry where
  trigger : Str
  output : Str
deriving DecidableEq, Repr

/-- The local `struct EmojiEntryFuzzy` of `search`. -/
structure EmojiEntryFuzzy where
  entry : EmojiEntry
  score : Int
deriving DecidableEq, Repr

/-- The locals of the per-entry scan of `search` (lines 128-132). -/
structure ScanState where
  score : Int
  queryIndex : Nat
  lastMatchIndex : Int
  consecutiveMatches : Int
  firstMatchIndex : Int
deriving DecidableEq, Repr

/-- The values the locals are initialised with (lines 128-132). -/
def ScanState.init : ScanState :=
  { score := 0, queryIndex := 0, lastMatchIndex := -1, consecutiveMatches := 0,
    firstMatchIndex := -1 }

/-- The body of the inner `for` loop at index `i` (lines 135-152). -/
def scanBody (trigger pfx : Str) (i : Nat) (st : ScanState) : ScanState :=
  if trigger.getD i 0 = pfx.getD st.queryIndex 0 then
    let firstMatchIndex : Int := if st.queryIndex = 0 then (i : Int) else st.firstMatchIndex
    let consecutive : Bool := st.lastMatchIndex ≠ -1 ∧ (i : Int) = st.lastMatchIndex + 1
    let consecutiveMatches : Int := if consecutive then st.consecutiveMatches + 1 else 0
    let score : Int := if consecutive then st.score + 20 * consecutiveMatches else st.score
    let boundary : Bool :=
      i = 0 ∨ trigger.getD (i - 1) 0 = 95 ∨ trigger.getD (i - 1) 0 = 45
    let score : Int := if boundary then score + 50 else score
    { score := score, queryIndex := st.queryIndex + 1, lastMatchIndex := (i : Int),
      consecutiveMatches := consecutiveMatches, firstMatchIndex := firstMatchIndex }
  else st

/-- The inner `for` loop (line 134) from index `i` on; `fuel` bounds the number of
iterations left, and `trigger.length - i` is always enough. -/
def scanLoop (trigger pfx : Str) : Nat → Nat → ScanState → ScanState
  | 0, _, st => st
  | fuel + 1, i, st =>
    if i < trigger.length ∧ st.queryIndex < pfx.length then
      scanLoop trigger pfx fuel (i + 1) (scanBody trigger pfx i st)
    else st

/-- The whole inner loop for one entry, from `i = 0` with the initial locals. -/
def scanEntry (trigger pfx : Str) : ScanState :=
  scanLoop trigger pfx trigger.length 0 ScanState.init

/-- Whether the scan reached the end of the query (the test of line 154). -/
def isMatch (trigger pfx : Str) : Bool :=
  (scanEntry trigger pfx).queryIndex = pfx.length

/-- The score pushed with a matching entry (lines 154-162); `none` when the entry
does not match. -/
def entryScore (trigger pfx : Str) : Option Int :=
  let st := scanEntry trigger pfx
  if st.queryIndex = pfx.length then
    let score : Int := if st.firstMatchIndex = 0 then st.score + 100 else st.score
    let score : Int := score - (trigger.length : Int)
    let score : Int := score - (st.lastMatchIndex - st.firstMatchIndex)
    some score
  else none

/-- The outer loop over `emojiList` (lines 127-164), appending to `results`. -/
def collect (pfx : Str) : List EmojiEntry → List EmojiEntryFuzzy → List EmojiEntryFuzzy
  | [], results => results
  | entry :: rest, results =>
    match entryScore entry.trigger pfx with
    | some score => collect pfx rest (results ++ [{ entry := entry, score := score }])
    | none => collect pfx rest results

/-- The comparison passed to `std::sort` (lines 166-170). -/
def comp (a b : EmojiEntryFuzzy) : Bool :=
  if a.score ≠ b.score then decide (a.score > b.score)
  else decide (a.entry.trigger.length < b.entry.trigger.length)

/-- The library routine `std::sort` with the comparison `comp`.  The C++ standard
fixes its result only up to the order of equivalent elements, so it is taken as a
parameter together with what the standard guarantees: the result is a
rearrangement of the input, and no element is followed by one that `comp` puts
strictly before it. -/
structure StdSort where
  sort : List EmojiEntryFuzzy → List EmojiEntryFuzzy
  perm : ∀ l, (sort l).Perm l
  sorted : ∀ l, (sort l).Pairwise (fun a b => comp b a = false)

/-- The method `EmojiLoader::search` (lines 117-177). -/
def search (S : StdSort) (emojiList : List EmojiEntry) (pfx : Str) : List EmojiEntry :=
  if pfx.isEmpty then []
  else
    let results := collect pfx emojiList []
    (S.sort results).map (fun result => result.entry)

/-- One routine that meets the guarantees of `std::sort`: insertion sort.  It
serves to run `search` on concrete stores. -/
def insertionStdSort : StdSort where
  sort := List.insertionSort (fun a b => comp b a = false)
  perm := List.perm_insertionSort _
  sorted := by
    intro l
    have htotal : IsTotal EmojiEntryFuzzy (fun a b => comp b a = false) := by
      constructor
      intro a b
      simp only [comp, ne_eq, ite_not, Bool.if_false_right, Bool.and_eq_false_imp,
        decide_eq_true_eq, decide_eq_false_iff_not, not_lt, gt_iff_lt]
      by_cases h : a.score = b.score
      · simp only [h, if_true]
        rcases Nat.le_total a.entry.trigger.length b.entry.trigger.length with h' | h'
        · left; simpa using h'
        · right; simpa using h'
      · have h2 : ¬ b.score = a.score := fun e => h e.symm
        simp only [h, h2, if_false]
        rcases lt_or_gt_of_ne h with h' | h'
        · right; simpa using le_of_lt h'
        · left; simpa using le_of_lt h'
    have htrans : IsTrans EmojiEntryFuzzy (fun a b => comp b a = false) := by
      constructor
      intro a b c
      simp only [comp, ne_eq, ite_not]
      intro hab hbc
      split at hab <;> split at hbc <;> split <;> simp_all <;> omega
    exact List.sorted_insertionSort _ l

/-- The method `EmojiLoader::size` (lines 179-181). -/
def size (emojiList : List EmojiEntry) : Nat := emojiList.length

/-! ## The codepoint decoder -/

/-- The conversion `static_cast<char>(x)` keeps the low eight bits. -/
def toChar (x : Nat) : Nat := x % 256

/-- The method `EmojiLoader::codepointToUTF8` (lines 21-39); `cp` is a
`uint32_t`, so callers pass a value below `2 ^ 32`. -/
def codepointToUTF8 (cp : Nat) : Str :=
  if cp ≤ 0x7F then
    [toChar cp]
  else if cp ≤ 0x7FF then
    [toChar (0xC0 ||| ((cp >>> 6) &&& 0x1F)),
     toChar (0x80 ||| (cp &&& 0x3F))]
  else if cp ≤ 0xFFFF then
    [toChar (0xE0 ||| ((cp >>> 12) &&& 0x0F)),
     toChar (0x80 ||| ((cp >>> 6) &&& 0x3F)),
     toChar (0x80 ||| (cp &&& 0x3F))]
  else if cp ≤ 0x10FFFF then
    [toChar (0xF0 ||| ((cp >>> 18) &&& 0x07)),
     toChar (0x80 ||| ((cp >>> 12) &&& 0x3F)),
     toChar (0x80 ||| ((cp >>> 6) &&& 0x3F)),
     toChar (0x80 ||| (cp &&& 0x3F))]
  else []

/-- What `std::getline(rawStream, segment, '-')` reads from a stream that is not
at its end: the characters before the first `-` (or all of them when there is
none), and the stream left after the `-` is consumed. -/
def readSegment : Str → Str × Str
  | [] => ([], [])
  | c :: cs =>
    if c = 45 then ([], cs)
    else ((c :: (readSegment cs).1), (readSegment cs).2)

/-- The call `std::getline(rawStream, segment, '-')` as the loop condition of
line 49: it fails (`none`) exactly when the stream is at its end, where no
character can be extracted. -/
def getline (rawStream : Str) : Option (Str × Str) :=
  match rawStream with
  | [] => none
  | _ :: _ => some (readSegment rawStream)

/-- White space of the classic locale, skipped before a formatted extraction. -/
def isSpace (c : Nat) : Bool := c = 32 ∨ (9 ≤ c ∧ c ≤ 13)

/-- The value of a hexadecimal digit, of either case. -/
def hexDigit (c : Nat) : Option Nat :=
  if 48 ≤ c ∧ c ≤ 57 then some (c - 48)
  else if 97 ≤ c ∧ c ≤ 102 then some (c - 87)
  else if 65 ≤ c ∧ c ≤ 70 then some (c - 55)
  else none

/-- The number a run of characters spells in base 16, read up to the first
character that is not a hexadecimal digit; `acc` is the value read so far. -/
def hexRun : Str → Nat → Nat
  | [], acc => acc
  | c :: cs, acc =>
    match hexDigit c with
    | some d => hexRun cs (16 * acc + d)
    | none => acc

/-- The optional `0x` or `0X` that a base-16 extraction accepts before the digits. -/
def dropHexPrefix : Str → Str
  | 48 :: 120 :: cs => cs
  | 48 :: 88 :: cs => cs
  | s => s

/-- The extraction `converter >> cp` of lines 52-53, in base 16, from a stream
that holds `segment`; `cp` is the content of the variable before the
extraction.  This is the library's `operator>>` for `unsigned int`: leading
white space is skipped; when nothing is left the extraction does not touch `cp`;
otherwise an optional sign and an optional `0x` are read, then the longest run
of hexadecimal digits, and `cp` receives their value (`0` when there is no
digit), the largest 32-bit value when the value does not fit, and the value
negated modulo `2 ^ 32` after a `-` sign. -/
def extractHex (segment : Str) (cp : Nat) : Nat :=
  match segment.dropWhile isSpace with
  | [] => cp
  | c :: cs =>
    let negative : Bool := c = 45
    let body : Str := if c = 45 ∨ c = 43 then cs else c :: cs
    let value : Nat := hexRun (dropHexPrefix body) 0
    if value > 0xFFFFFFFF then 0xFFFFFFFF
    else if negative then (2 ^ 32 - value) % 2 ^ 32
    else value

/-- The `while` loop of `parseHexToEmoji` (lines 49-55).  The variable `cp` is
declared without an initial value in each iteration; `uninit n` is what it
happens to hold in iteration `n`.  `fuel` bounds the iterations left; the
length of the stream is always enough, since each iteration consumes a
character. -/
def parseLoop (uninit : Nat → Nat) : Nat → Nat → Str → Str → Str
  | 0, _, _, result => result
  | fuel + 1, n, rawStream, result =>
    match getline rawStream with
    | none => result
    | some (segment, rest) =>
      let cp := extractHex segment (uninit n % 2 ^ 32)
      parseLoop uninit fuel (n + 1) rest (result ++ codepointToUTF8 cp)

/-- The method `EmojiLoader::parseHexToEmoji` (lines 41-57). -/
def parseHexToEmoji (uninit : Nat → Nat) (hexStr : Str) : Str :=
  parseLoop uninit hexStr.length 0 hexStr []

/-! ## The loader -/

/-- A parsed document, as `simdjson::dom::element` presents it: one of the eight
element types, an object being the sequence of its fields in document order
(a key may occur more than once).  A `double` is kept as its bit pattern; the
loader never looks at numbers. -/
inductive Json where
  | null : Json
  | bool (b : Bool) : Json
  | int64 (n : Int) : Json
  | uint64 (n : Nat) : Json
  | double (bits : Nat) : Json
  | string (s : Str) : Json
  | array (elems : List Json) : Json
  | object (fields : List (Str × Json)) : Json

/-- The test `element::is_object()`. -/
def Json.isObject : Json → Bool
  | .object _ => true
  | _ => false

/-- The lookup `object::operator[](key)`: the value of the first field with
that key, an error (`none`) when there is none. -/
def atKey (fields : List (Str × Json)) (key : Str) : Option Json :=
  match fields with
  | [] => none
  | (k, v) :: rest => if k = key then some v else atKey rest key

/-- The lookup `simdjson_result<element>::operator[](key)`: an error stays an
error, an element that is not an object is an error, an object is searched
with `atKey`. -/
def elementAtKey (r : Option Json) (key : Str) : Option Json :=
  match r with
  | some (.object fields) => atKey fields key
  | _ => none

/-- The conversion `.get(std::string_view&)`: succeeds on a string only. -/
def Json.getString (r : Option Json) : Option Str :=
  match r with
  | some (.string s) => some s
  | _ => none

/-- The conversion `.get(dom::array&)`: succeeds on an array only. -/
def Json.getArray (r : Option Json) : Option (List Json) :=
  match r with
  | some (.array elems) => some elems
  | _ => none

/-- The loops over `alternates` and over `asciiArr` (lines 95-100 and 105-110):
every element that is a string is pushed as a trigger of `emojiChar`. -/
def pushStrings (emojiChar : Str) : List Json → List EmojiEntry → List EmojiEntry
  | [], emojiList => emojiList
  | elem :: rest, emojiList =>
    match Json.getString (some elem) with
    | some str => pushStrings emojiChar rest (emojiList ++ [{ trigger := str, output := emojiChar }])
    | none => pushStrings emojiChar rest emojiList

/-- The body of the loop over the root object for one field value (lines 78-111);
`uninit` is what the uninitialised `cp` of `parseHexToEmoji` holds in this call. -/
def processRecord (uninit : Nat → Nat) (value : Json) (emojiList : List EmojiEntry) :
    List EmojiEntry :=
  match value with
  | .object emojiData =>
    match Json.getString (elementAtKey (atKey emojiData (ascii "code_points")) (ascii "output")) with
    | none => emojiList
    | some hexCode =>
      let emojiChar := parseHexToEmoji uninit hexCode
      let emojiList :=
        match Json.getString (atKey emojiData (ascii "shortname")) with
        | some shortname => emojiList ++ [{ trigger := shortname, output := emojiChar }]
        | none => emojiList
      let emojiList :=
        match Json.getArray (atKey emojiData (ascii "shortname_alternates")) with
        | some alternates => pushStrings emojiChar alternates emojiList
        | none => emojiList
      let emojiList :=
        match Json.getArray (atKey emojiData (ascii "ascii")) with
        | some asciiArr => pushStrings emojiChar asciiArr emojiList
        | none => emojiList
      emojiList
  | _ => emojiList

/-- The loop over the fields of the root object (lines 77-112); `n` counts the
fields already visited, and `uninit n` belongs to the field visited next. -/
def loadLoop (uninit : Nat → Nat → Nat) : Nat → List (Str × Json) → List EmojiEntry →
    List EmojiEntry
  | _, [], emojiList => emojiList
  | n, (_, value) :: rest, emojiList =>
    loadLoop uninit (n + 1) rest (processRecord (uninit n) value emojiList)

/-- The method `EmojiLoader::load` (lines 62-115).  `parsed` is the outcome of
`parser.load(filename)`: `none` when it throws (the file cannot be read or is
not JSON), the root element otherwise.  Gives the returned flag and the
`emojiList` after the call. -/
def load (uninit : Nat → Nat → Nat) (parsed : Option Json) (emojiList : List EmojiEntry) :
    Bool × List EmojiEntry :=
  match parsed with
  | none => (false, emojiList)
  | some root =>
    match root with
    | .object rootObj => (true, loadLoop uninit 0 rootObj emojiList)
    | _ => (false, emojiList)

/-! ## UTF-8 as the Unicode standard defines it -/

/-- A Unicode scalar value: at most `0x10FFFF` and not a surrogate. -/
def isScalarValue (v : Nat) : Bool := v ≤ 0x10FFFF ∧ ¬ (0xD800 ≤ v ∧ v ≤ 0xDFFF)

/-- A continuation byte `10xxxxxx`. -/
def isContinuation (b : Nat) : Bool := 0x80 ≤ b ∧ b ≤ 0xBF

/-- Decoding of the first scalar value of a byte string by the rules of UTF-8:
the lead byte fixes the number of continuation bytes, and a sequence is refused
when it is truncated, when a continuation byte is missing, when the value has a
shorter encoding, is a surrogate, or is above `0x10FFFF`.  Gives the value and
the bytes left. -/
def utf8DecodeOne : Str → Option (Nat × Str)
  | [] => none
  | b0 :: rest =>
    if b0 ≤ 0x7F then some (b0, rest)
    else if 0xC0 ≤ b0 ∧ b0 ≤ 0xDF then
      match rest with
      | b1 :: rest1 =>
        let v := (b0 - 0xC0) * 64 + (b1 - 0x80)
        if isContinuation b1 ∧ 0x80 ≤ v then some (v, rest1) else none
      | _ => none
    else if 0xE0 ≤ b0 ∧ b0 ≤ 0xEF then
      match rest with
      | b1 :: b2 :: rest2 =>
        let v := (b0 - 0xE0) * 4096 + (b1 - 0x80) * 64 + (b2 - 0x80)
        if isContinuation b1 ∧ isContinuation b2 ∧ 0x800 ≤ v ∧ isScalarValue v
        then some (v, rest2) else none
      | _ => none
    else if 0xF0 ≤ b0 ∧ b0 ≤ 0xF7 then
      match rest with
      | b1 :: b2 :: b3 :: rest3 =>
        let v := (b0 - 0xF0) * 262144 + (b1 - 0x80) * 4096 + (b2 - 0x80) * 64 + (b3 - 0x80)
        if isContinuation b1 ∧ isContinuation b2 ∧ isContinuation b3 ∧ 0x10000 ≤ v ∧
          isScalarValue v
        then some (v, rest3) else none
      | _ => none
    else none

/-- Decoding of a whole byte string; `fuel` bounds the number of scalar values. -/
def utf8DecodeN : Nat → Str → Option (List Nat)
  | _, [] => some []
  | 0, _ :: _ => none
  | fuel + 1, b :: bs =>
    match utf8DecodeOne (b :: bs) with
    | none => none
    | some (v, rest) => (utf8DecodeN fuel rest).map (fun vs => v :: vs)

/-- The scalar values a byte string encodes in UTF-8, `none` when it is not
well-formed UTF-8. -/
def utf8Decode (bs : Str) : Option (List Nat) := utf8DecodeN bs.length bs

/-! ## Predicates used in the statements -/

/-- The number a string of hexadecimal digits spells in positional notation:
the first digit is worth `16 ^ (number of digits after it)` times its value. -/
def hexValue : Str → Nat
  | [] => 0
  | c :: cs => (hexDigit c).getD 0 * 16 ^ cs.length + hexValue cs

/-- The string `tok` is a hexadecimal spelling of `v` with one to eight digits. -/
def isHexSpelling (tok : Str) (v : Nat) : Bool :=
  1 ≤ tok.length ∧ tok.length ≤ 8 ∧ (∀ c ∈ tok, (hexDigit c).isSome = true) ∧ hexValue tok = v

/-- The strings among the elements of a JSON array, in array order. -/
def stringElements : List Json → List Str
  | [] => []
  | .string s :: rest => s :: stringElements rest
  | _ :: rest => stringElements rest

/-- The trigger a `shortname` field gives: its value when the field is present
and a string, nothing otherwise. -/
def stringField : Option Json → List Str
  | some (.string s) => [s]
  | _ => []

/-- The triggers a `shortname_alternates` or `ascii` field gives: the string
elements of its value when the field is present and an array, nothing
otherwise. -/
def stringArrayField : Option Json → List Str
  | some (.array elems) => stringElements elems
  | _ => []

/-- The triggers of a record as the specification lists them: the `shortname`
if it is present and a string, then the string elements of
`shortname_alternates`, then the string elements of `ascii`. -/
def recordTriggers (fields : List (Str × Json)) : List Str :=
  stringField (atKey fields (ascii "shortname"))
  ++ stringArrayField (atKey fields (ascii "shortname_alternates"))
  ++ stringArrayField (atKey fields (ascii "ascii"))

/-- The field `code_points.output` of a record when it is a string. -/
def recordOutput (value : Json) : Option Str :=
  match value with
  | .object fields =>
    match atKey fields (ascii "code_points") with
    | some (.object cp) =>
      match atKey cp (ascii "output") with
      | some (.string h) => some h
      | _ => none
    | _ => none
  | _ => none

/-- The entries a record contributes as the specification describes them: none
unless the record is an object with a string `code_points.output`; otherwise
one entry per trigger of `recordTriggers`, each with the decoded output. -/
def recordEntries (uninit : Nat → Nat) (value : Json) : List EmojiEntry :=
  match value with
  | .object fields =>
    match recordOutput value with
    | some h => (recordTriggers fields).map
        (fun t => { trigger := t, output := parseHexToEmoji uninit h })
    | none => []
  | _ => []

/-- The entries of all records of a document, in document order; the record at
position `i` is decoded with `uninit (n + i)`. -/
def documentEntries (uninit : Nat → Nat → Nat) : Nat → List (Str × Json) → List EmojiEntry
  | _, [] => []
  | n, (_, value) :: rest => recordEntries (uninit n) value ++ documentEntries uninit (n + 1) rest

/-- A record that the loader tolerates by omission: a value that is not an
object, or has no string `code_points.output`, or has one but none of the keys
`shortname`, `shortname_alternates`, `ascii`. -/
def isOmittedRecord (value : Json) : Bool :=
  match value with
  | .object fields =>
    (recordOutput value).isNone ||
      ((atKey fields (ascii "shortname")).isNone &&
        (atKey fields (ascii "shortname_alternates")).isNone &&
        (atKey fields (ascii "ascii")).isNone)
  | _ => true

/-- The values of the uninitialised variable for a document from which the
field at position `k` is taken away: later fields keep their own values. -/
def skipField (uninit : Nat → Nat → Nat) (k : Nat) : Nat → Nat → Nat :=
  fun i => if i < k then uninit i else uninit (i + 1)

/-- The record of the specification's example: shortname `grinning`, alternate
`:D`, ASCII form `:-)`, output `1F600`. -/
def grinningRecord : Json :=
  .object [
    (ascii "code_points", .object [(ascii "output", .string (ascii "1F600"))]),
    (ascii "shortname", .string (ascii "grinning")),
    (ascii "shortname_alternates", .array [.string (ascii ":D")]),
    (ascii "ascii", .array [.string (ascii ":-)")])]

/-- A record with a trigger whose `code_points.output` is the hexadecimal string
`hex`. -/
def recordWithOutput (hex : Str) : Json :=
  .object [
    (ascii "code_points", .object [(ascii "output", .string hex)]),
    (ascii "shortname", .string (ascii "x"))]

/-- The order of two entries that `search` may return one before the other: the
first has the greater score, or the same score and a trigger that is not longer. -/
def RankedBefore (q : Str) (a b : EmojiEntry) : Prop :=
  ∃ sa sb : Int, entryScore a.trigger q = some sa ∧ entryScore b.trigger q = some sb ∧
    (sa > sb ∨ (sa = sb ∧ a.trigger.length ≤ b.trigger.length))

/-- A token made of one or more hexadecimal digits, of any number. -/
def isHexToken (tok : Str) : Bool :=
  tok ≠ [] ∧ ∀ c ∈ tok, (hexDigit c).isSome = true

/-- The bytes `parseHexToEmoji` emits for a list of segments, segment after
segment: each is extracted into `cp` (which holds `uninit n` before, `n` being
the position of the segment) and encoded. -/
def decodeSegments (uninit : Nat → Nat) : Nat → List Str → Str
  | _, [] => []
  | n, seg :: rest =>
    codepointToUTF8 (extractHex seg (uninit n % 2 ^ 32)) ++ decodeSegments uninit (n + 1) rest

/-! ## The scan with checked accesses -/

/-- The access `s[i]` of a `std::string` with its precondition: outside the
string there is no value to read. -/
def charAt (s : Str) (i : Nat) : Option Nat := s[i]?

/-- The test of line 146, with the accesses checked and in the order the
short-circuit `||` makes them: `trigger[i - 1]` is read only when `i == 0` is
false, and read again only when it is not `_`. -/
def boundaryChecked (trigger : Str) (i : Nat) : Option Bool :=
  if i = 0 then some true
  else
    match charAt trigger (i - 1) with
    | none => none
    | some c =>
      if c = 95 then some true
      else
        match charAt trigger (i - 1) with
        | none => none
        | some d => some (decide (d = 45))

/-- The body of the inner loop (lines 135-152) with every character access
checked; `none` when an access falls outside its string. -/
def scanBodyChecked (trigger pfx : Str) (i : Nat) (st : ScanState) : Option ScanState :=
  match charAt trigger i, charAt pfx st.queryIndex with
  | some a, some b =>
    if a = b then
      let firstMatchIndex : Int := if st.queryIndex = 0 then (i : Int) else st.firstMatchIndex
      let consecutive : Bool := st.lastMatchIndex ≠ -1 ∧ (i : Int) = st.lastMatchIndex + 1
      let consecutiveMatches : Int := if consecutive then st.consecutiveMatches + 1 else 0
      let score : Int := if consecutive then st.score + 20 * consecutiveMatches else st.score
      match boundaryChecked trigger i with
      | none => none
      | some boundary =>
        let score : Int := if boundary then score + 50 else score
        some { score := score, queryIndex := st.queryIndex + 1, lastMatchIndex := (i : Int),
               consecutiveMatches := consecutiveMatches, firstMatchIndex := firstMatchIndex }
    else some st
  | _, _ => none

/-- The inner loop (line 134) with checked accesses. -/
def scanLoopChecked (trigger pfx : Str) : Nat → Nat → ScanState → Option ScanState
  | 0, _, st => some st
  | fuel + 1, i, st =>
    if i < trigger.length ∧ st.queryIndex < pfx.length then
      match scanBodyChecked trigger pfx i st with
      | none => none
      | some st' => scanLoopChecked trigger pfx fuel (i + 1) st'
    else some st

/-- The outer loop (lines 127-164) with checked accesses: for each entry the
scan, then the test of line 154 and the push of the score. -/
def collectChecked (pfx : Str) :
    List EmojiEntry → List EmojiEntryFuzzy → Option (List EmojiEntryFuzzy)
  | [], results => some results
  | entry :: rest, results =>
    match scanLoopChecked entry.trigger pfx entry.trigger.length 0 ScanState.init with
    | none => none
    | some st =>
      if st.queryIndex = pfx.length then
        let score : Int := if st.firstMatchIndex = 0 then st.score + 100 else st.score
        let score : Int := score - (entry.trigger.length : Int)
        let score : Int := score - (st.lastMatchIndex - st.firstMatchIndex)
        collectChecked pfx rest (results ++ [{ entry := entry, score := score }])
      else collectChecked pfx rest results

/-- The method `search` with checked accesses: `none` when some character
access falls outside its string, the result otherwise. -/
def searchChecked (S : StdSort) (emojiList : List EmojiEntry) (pfx : Str) :
    Option (List EmojiEntry) :=
  if pfx.isEmpty then some []
  else
    match collectChecked pfx emojiList [] with
    | none => none
    | some results => some ((S.sort results).map (fun result => result.entry))

/-! # Properties -/

/-! ## The scan and subsequences -/

theorem cons_sublist_cons_of_ne {a b : Nat} {l₁ l₂ : List Nat} (h : a ≠ b) :
    (a :: l₁).Sublist (b :: l₂) ↔ (a :: l₁).Sublist l₂ := by
  constructor
  · intro hs
    cases hs with
    | cons _ hs => exact hs
    | cons₂ _ hs => exact absurd rfl h
  · intro hs
    exact List.Sublist.cons _ hs

theorem scanBody_queryIndex (t q : Str) (i : Nat) (st : ScanState) :
    (scanBody t q i st).queryIndex
      = if t.getD i 0 = q.getD st.queryIndex 0 then st.queryIndex + 1 else st.queryIndex := by
  unfold scanBody
  split <;> rfl

theorem scanLoop_queryIndex_iff (t q : Str) :
    ∀ (fuel i : Nat) (st : ScanState), i + fuel = t.length → st.queryIndex ≤ q.length →
      ((scanLoop t q fuel i st).queryIndex = q.length
        ↔ (q.drop st.queryIndex).Sublist (t.drop i)) := by
  intro fuel
  induction fuel with
  | zero =>
    intro i st hi hk
    have hi' : t.length ≤ i := by omega
    simp only [scanLoop, List.drop_eq_nil_of_le hi', List.sublist_nil, List.drop_eq_nil_iff]
    omega
  | succ fuel ih =>
    intro i st hi hk
    have hil : i < t.length := by omega
    unfold scanLoop
    by_cases hq : st.queryIndex < q.length
    · rw [if_pos ⟨hil, hq⟩]
      rw [ih (i + 1) _ (by omega) (by rw [scanBody_queryIndex]; split <;> omega)]
      rw [scanBody_queryIndex]
      have ht : t.drop i = t.getD i 0 :: t.drop (i + 1) := by
        rw [List.getD_eq_getElem _ _ hil]; exact List.drop_eq_getElem_cons hil
      have hqd : q.drop st.queryIndex = q.getD st.queryIndex 0 :: q.drop (st.queryIndex + 1) := by
        rw [List.getD_eq_getElem _ _ hq]; exact List.drop_eq_getElem_cons hq
      by_cases hc : t.getD i 0 = q.getD st.queryIndex 0
      · rw [if_pos hc, ht, hqd, hc, List.cons_sublist_cons]
      · rw [if_neg hc, ht, hqd]
        exact (cons_sublist_cons_of_ne (fun h => hc h.symm)).symm
    · have hq' : st.queryIndex = q.length := by omega
      rw [if_neg (by omega)]
      simp [hq']

/-- The scan reaches the end of the query exactly when the query is a sublist of
the trigger. -/
theorem isMatch_iff_sublist (t q : Str) : isMatch t q = true ↔ q.Sublist t := by
  unfold isMatch scanEntry
  rw [decide_eq_true_iff]
  simpa [ScanState.init] using
    scanLoop_queryIndex_iff t q t.length 0 ScanState.init (by simp) (by simp [ScanState.init])

/-- A sublist is the same as a choice of strictly increasing positions. -/
theorem sublist_iff_positions (q t : Str) :
    q.Sublist t ↔
      ∃ p : Nat → Nat, (∀ j k, j < k → k < q.length → p j < p k) ∧
        ∀ k (hk : k < q.length), t[p k]? = some q[k] := by
  rw [List.sublist_iff_exists_fin_orderEmbedding_get_eq]
  constructor
  · rintro ⟨f, hf⟩
    refine ⟨fun k => if h : k < q.length then (f ⟨k, h⟩).val else 0, ?_, ?_⟩
    · intro j k hjk hk
      have hj : j < q.length := by omega
      simp only [dif_pos hj, dif_pos hk]
      exact f.lt_iff_lt.mpr (by simpa using hjk)
    · intro k hk
      simp only [dif_pos hk]
      have h := hf ⟨k, hk⟩
      rw [List.getElem?_eq_getElem (f ⟨k, hk⟩).isLt]
      simp only [List.get_eq_getElem] at h
      rw [h]
  · rintro ⟨p, hmono, hp⟩
    have hlt : ∀ k (hk : k < q.length), p k < t.length := by
      intro k hk
      have h := hp k hk
      exact (List.getElem?_eq_some_iff.mp h).1
    refine ⟨OrderEmbedding.ofStrictMono (fun k : Fin q.length => ⟨p k.val, hlt k.val k.isLt⟩) ?_, ?_⟩
    · intro a b hab
      exact hmono a.val b.val hab b.isLt
    · intro ix
      have h := hp ix.val ix.isLt
      simp only [List.get_eq_getElem, OrderEmbedding.coe_ofStrictMono]
      exact ((List.getElem?_eq_some_iff.mp h).2).symm

theorem isSome_entryScore (t q : Str) : (entryScore t q).isSome = isMatch t q := by
  unfold entryScore isMatch
  by_cases h : (scanEntry t q).queryIndex = q.length <;> simp [h]

/-- C1: the greedy scan of `search` reaches the end of the query exactly when the
query is a subsequence of the trigger, that is when there are strictly increasing
positions `p 0 < p 1 < ...` in the trigger holding the query's characters in
order; query "gh" does not match trigger "hug" and matches "grinning_hug". -/
theorem scan_reaches_end_iff_subsequence :
    (∀ t q : Str, (scanEntry t q).queryIndex = q.length ↔
      ∃ p : Nat → Nat, (∀ j k, j < k → k < q.length → p j < p k) ∧
        ∀ k (hk : k < q.length), t[p k]? = some q[k])
    ∧ (∀ t q : Str, (entryScore t q).isSome = true ↔ (scanEntry t q).queryIndex = q.length)
    ∧ (scanEntry (ascii "hug") (ascii "gh")).queryIndex ≠ (ascii "gh").length
    ∧ (entryScore (ascii "hug") (ascii "gh")) = none
    ∧ (scanEntry (ascii "grinning_hug") (ascii "gh")).queryIndex = (ascii "gh").length
    ∧ (entryScore (ascii "grinning_hug") (ascii "gh")).isSome = true := by
  refine ⟨?_, ?_, by decide, by decide, by decide, by decide⟩
  · intro t q
    rw [← sublist_iff_positions, ← isMatch_iff_sublist]
    simp [isMatch]
  · intro t q
    rw [isSome_entryScore]
    simp [isMatch]

/-! ## The result of `search` -/

theorem collect_eq (q : Str) : ∀ (l : List EmojiEntry) (acc : List EmojiEntryFuzzy),
    collect q l acc = acc ++ l.filterMap
      (fun e => (entryScore e.trigger q).map (fun sc => { entry := e, score := sc })) := by
  intro l
  induction l with
  | nil => intro acc; simp [collect]
  | cons e rest ih =>
    intro acc
    unfold collect
    cases h : entryScore e.trigger q with
    | none => simp [ih, List.filterMap_cons, h]
    | some sc => simp [ih, List.filterMap_cons, h]

theorem collect_scores (q : Str) (l : List EmojiEntry) :
    ∀ r ∈ collect q l [], entryScore r.entry.trigger q = some r.score := by
  intro r hr
  rw [collect_eq] at hr
  simp only [List.nil_append, List.mem_filterMap, Option.map_eq_some'] at hr
  obtain ⟨e, _, sc, hsc, rfl⟩ := hr
  exact hsc

theorem collect_entries (q : Str) (l : List EmojiEntry) :
    (collect q l []).map (fun r => r.entry) = l.filter (fun e => isMatch e.trigger q) := by
  rw [collect_eq, List.nil_append]
  induction l with
  | nil => rfl
  | cons e rest ih =>
    have hs := isSome_entryScore e.trigger q
    cases h : entryScore e.trigger q with
    | none =>
      rw [h] at hs
      simp only [List.filterMap_cons, h, Option.map_none', List.filter_cons]
      rw [← hs]
      simpa using ih
    | some sc =>
      rw [h] at hs
      simp only [List.filterMap_cons, h, Option.map_some', List.filter_cons, List.map_cons]
      rw [← hs]
      simpa using ih

theorem comp_eq_false_iff (a b : EmojiEntryFuzzy) :
    comp b a = false ↔
      (a.score > b.score ∨ (a.score = b.score ∧
        a.entry.trigger.length ≤ b.entry.trigger.length)) := by
  unfold comp
  by_cases h : b.score = a.score
  · simp [h]
  · simp only [ne_eq, h, not_false_eq_true, if_true, decide_eq_false_iff_not, gt_iff_lt, not_lt]
    constructor
    · intro h'
      left
      exact lt_of_le_of_ne h' h
    · rintro (h' | ⟨h', _⟩)
      · exact le_of_lt h'
      · exact absurd h'.symm h

/-- C2: for a non-empty query the result of `search` is a rearrangement of the
entries of the store whose trigger has the query as a subsequence; each such
entry occurs as often as in the store, unchanged, and nothing else occurs. -/
theorem search_perm_matching (S : StdSort) (store : List EmojiEntry) (q : Str)
    (hq : q ≠ []) :
    (search S store q).Perm (store.filter (fun e => decide (q.Sublist e.trigger)))
    ∧ ∀ e : EmojiEntry, (search S store q).count e
        = if q.Sublist e.trigger then store.count e else 0 := by
  have hperm : (search S store q).Perm
      (store.filter (fun e => decide (q.Sublist e.trigger))) := by
    unfold search
    have hne : q.isEmpty = false := by cases q <;> simp_all
    simp only [hne, Bool.false_eq_true, if_false]
    have h1 := (S.perm (collect q store [])).map (fun r => r.entry)
    rw [collect_entries] at h1
    have h2 : (fun e : EmojiEntry => isMatch e.trigger q)
        = (fun e => decide (q.Sublist e.trigger)) := by
      funext e
      rw [Bool.eq_iff_iff, isMatch_iff_sublist]
      simp
    rw [h2] at h1
    exact h1
  refine ⟨hperm, ?_⟩
  intro e
  rw [hperm.count_eq]
  by_cases h : q.Sublist e.trigger
  · rw [if_pos h]
    exact List.count_filter (by simpa using h)
  · rw [if_neg h]
    apply List.count_eq_zero_of_not_mem
    simp [List.mem_filter, h]

theorem search_perm_matching_witness :
    ascii "gh" ≠ [] ∧
    ((search insertionStdSort
        [⟨ascii "hug", [1]⟩, ⟨ascii "grinning_hug", [2]⟩] (ascii "gh")).Perm
      ([⟨ascii "hug", [1]⟩, ⟨ascii "grinning_hug", [2]⟩].filter
        (fun e => decide ((ascii "gh").Sublist e.trigger)))
    ∧ ∀ e : EmojiEntry, (search insertionStdSort
        [⟨ascii "hug", [1]⟩, ⟨ascii "grinning_hug", [2]⟩] (ascii "gh")).count e
        = if (ascii "gh").Sublist e.trigger
          then ([⟨ascii "hug", [1]⟩, ⟨ascii "grinning_hug", [2]⟩] : List EmojiEntry).count e
          else 0) :=
  ⟨by decide, search_perm_matching insertionStdSort _ (ascii "gh") (by decide)⟩

theorem search_pairwise (S : StdSort) (store : List EmojiEntry) (q : Str) :
    (search S store q).Pairwise (RankedBefore q) := by
  unfold search
  by_cases hq : q.isEmpty
  · simp [hq]
  · simp only [hq, Bool.false_eq_true, if_false]
    rw [List.pairwise_map]
    refine (S.sorted (collect q store [])).imp_of_mem ?_
    intro a b ha hb hab
    have ha' := collect_scores q store a ((S.perm _).mem_iff.mp ha)
    have hb' := collect_scores q store b ((S.perm _).mem_iff.mp hb)
    exact ⟨a.score, b.score, ha', hb', (comp_eq_false_iff a b).mp hab⟩

theorem or_add_64 : ∀ y < 64, 128 ||| y = 128 + y := by decide
theorem or_add_32 : ∀ y < 32, 192 ||| y = 192 + y := by decide
theorem or_add_16 : ∀ y < 16, 224 ||| y = 224 + y := by decide
theorem or_add_8 : ∀ y < 8, 240 ||| y = 240 + y := by decide

theorem and_63 (x : Nat) : x &&& 0x3F = x % 64 := Nat.and_pow_two_sub_one_eq_mod x 6
theorem and_31 (x : Nat) : x &&& 0x1F = x % 32 := Nat.and_pow_two_sub_one_eq_mod x 5
theorem and_15 (x : Nat) : x &&& 0x0F = x % 16 := Nat.and_pow_two_sub_one_eq_mod x 4
theorem and_7 (x : Nat) : x &&& 0x07 = x % 8 := Nat.and_pow_two_sub_one_eq_mod x 3

theorem codepointToUTF8_arith (cp : Nat) :
    codepointToUTF8 cp =
      if cp ≤ 0x7F then [cp]
      else if cp ≤ 0x7FF then [0xC0 + cp / 64, 0x80 + cp % 64]
      else if cp ≤ 0xFFFF then [0xE0 + cp / 4096, 0x80 + cp / 64 % 64, 0x80 + cp % 64]
      else if cp ≤ 0x10FFFF then
        [0xF0 + cp / 262144, 0x80 + cp / 4096 % 64, 0x80 + cp / 64 % 64, 0x80 + cp % 64]
      else [] := by
  unfold codepointToUTF8 toChar
  simp only [and_63, and_31, and_15, and_7, Nat.shiftRight_eq_div_pow]
  split
  · congr 1; omega
  split
  · rw [or_add_64 _ (Nat.mod_lt _ (by norm_num)), or_add_32 _ (Nat.mod_lt _ (by norm_num))]
    congr 1
    · omega
    · congr 1; omega
  split
  · rw [or_add_64 _ (Nat.mod_lt _ (by norm_num)), or_add_64 _ (Nat.mod_lt _ (by norm_num)),
      or_add_16 _ (Nat.mod_lt _ (by norm_num))]
    congr 1
    · omega
    · congr 1
      · omega
      · congr 1; omega
  split
  · rw [or_add_64 _ (Nat.mod_lt _ (by norm_num)), or_add_64 _ (Nat.mod_lt _ (by norm_num)),
      or_add_64 _ (Nat.mod_lt _ (by norm_num)), or_add_8 _ (Nat.mod_lt _ (by norm_num))]
    congr 1
    · omega
    · congr 1
      · omega
      · congr 1
        · omega
        · congr 1; omega
  · rfl

theorem utf8DecodeOne_codepointToUTF8 (v : Nat) (rest : Str) (hv : isScalarValue v = true) :
    utf8DecodeOne (codepointToUTF8 v ++ rest) = some (v, rest) := by
  have hs : v ≤ 0x10FFFF ∧ ¬ (0xD800 ≤ v ∧ v ≤ 0xDFFF) := by
    unfold isScalarValue at hv
    exact of_decide_eq_true hv
  rw [codepointToUTF8_arith]
  by_cases h1 : v ≤ 0x7F
  · simp [h1, utf8DecodeOne]
  by_cases h2 : v ≤ 0x7FF
  · rw [if_neg h1, if_pos h2]
    have e : v / 64 * 64 + v % 64 = v := by omega
    simp only [List.cons_append, List.nil_append, utf8DecodeOne, Nat.add_sub_cancel_left, e,
      isContinuation]
    rw [if_neg (by omega), if_pos (by omega), if_pos]
    simp only [decide_eq_true_eq]
    omega
  by_cases h3 : v ≤ 0xFFFF
  · rw [if_neg h1, if_neg h2, if_pos h3]
    have e : v / 4096 * 4096 + v / 64 % 64 * 64 + v % 64 = v := by omega
    simp only [List.cons_append, List.nil_append, utf8DecodeOne, Nat.add_sub_cancel_left, e,
      isContinuation, hv]
    rw [if_neg (by omega), if_neg (by omega), if_pos (by omega), if_pos]
    simp only [decide_eq_true_eq, and_true]
    omega
  · rw [if_neg h1, if_neg h2, if_neg h3, if_pos hs.1]
    have e : v / 262144 * 262144 + v / 4096 % 64 * 4096 + v / 64 % 64 * 64 + v % 64 = v := by
      omega
    simp only [List.cons_append, List.nil_append, utf8DecodeOne, Nat.add_sub_cancel_left, e,
      isContinuation, hv]
    rw [if_neg (by omega), if_neg (by omega), if_neg (by omega), if_pos (by omega), if_pos]
    simp only [decide_eq_true_eq, and_true]
    omega

theorem codepointToUTF8_length_pos (v : Nat) (hv : v ≤ 0x10FFFF) :
    0 < (codepointToUTF8 v).length := by
  rw [codepointToUTF8_arith]
  split
  · simp
  split
  · simp
  split
  · simp
  · simp [hv]

theorem utf8DecodeOne_length {bs rest : Str} {v : Nat} (h : utf8DecodeOne bs = some (v, rest)) :
    rest.length < bs.length := by
  unfold utf8DecodeOne at h
  split at h
  · exact absurd h (by simp)
  · split at h
    · simp only [Option.some.injEq, Prod.mk.injEq] at h
      rw [← h.2]; simp
    split at h
    · split at h
      · simp only at h
        split at h
        · simp only [Option.some.injEq, Prod.mk.injEq] at h
          rw [← h.2]; simp; omega
        · exact absurd h (by simp)
      · exact absurd h (by simp)
    split at h
    · split at h
      · simp only at h
        split at h
        · simp only [Option.some.injEq, Prod.mk.injEq] at h
          rw [← h.2]; simp; omega
        · exact absurd h (by simp)
      · exact absurd h (by simp)
    split at h
    · split at h
      · simp only at h
        split at h
        · simp only [Option.some.injEq, Prod.mk.injEq] at h
          rw [← h.2]; simp; omega
        · exact absurd h (by simp)
      · exact absurd h (by simp)
    · exact absurd h (by simp)

/-- More fuel than bytes changes nothing. -/
theorem utf8DecodeN_fuel : ∀ (fuel : Nat) (bs : Str), bs.length ≤ fuel →
    utf8DecodeN fuel bs = utf8DecodeN bs.length bs := by
  intro fuel
  induction fuel using Nat.strong_induction_on with
  | _ fuel ih =>
    intro bs hle
    cases bs with
    | nil => cases fuel <;> simp [utf8DecodeN]
    | cons b bs =>
      cases fuel with
      | zero => simp at hle
      | succ fuel =>
        simp only [List.length_cons, utf8DecodeN]
        cases h : utf8DecodeOne (b :: bs) with
        | none => rfl
        | some vr =>
          obtain ⟨v, rest⟩ := vr
          have hl := utf8DecodeOne_length h
          simp only [List.length_cons] at hl hle
          simp only
          rw [ih fuel (by omega) rest (by omega), ih bs.length (by omega) rest (by omega)]

theorem utf8Decode_append_codepoint (v : Nat) (rest : Str) (hv : isScalarValue v = true) :
    utf8Decode (codepointToUTF8 v ++ rest) = (utf8Decode rest).map (fun vs => v :: vs) := by
  have hs : v ≤ 0x10FFFF := by
    have : v ≤ 0x10FFFF ∧ ¬ (0xD800 ≤ v ∧ v ≤ 0xDFFF) := by
      unfold isScalarValue at hv
      exact of_decide_eq_true hv
    exact this.1
  have hpos := codepointToUTF8_length_pos v hs
  have hone := utf8DecodeOne_codepointToUTF8 v rest hv
  unfold utf8Decode
  cases hb : codepointToUTF8 v ++ rest with
  | nil =>
    rw [List.append_eq_nil] at hb
    rw [hb.1] at hpos
    simp at hpos
  | cons b bs =>
    rw [hb] at hone
    simp only [List.length_cons, utf8DecodeN, hone]
    have hl := utf8DecodeOne_length hone
    simp only [List.length_cons] at hl
    rw [utf8DecodeN_fuel bs.length rest (by omega)]

/-- Decoding the encodings of scalar values, one after the other, gives them back. -/
theorem utf8Decode_codepoints (vs : List Nat) (hvs : ∀ v ∈ vs, isScalarValue v = true) :
    utf8Decode (vs.map codepointToUTF8).flatten = some vs := by
  induction vs with
  | nil => rfl
  | cons v vs ih =>
    rw [List.map_cons, List.flatten_cons,
      utf8Decode_append_codepoint v _ (hvs v (List.mem_cons_self _ _)),
      ih (fun w hw => hvs w (List.mem_cons_of_mem _ hw))]
    rfl

/-! ## Agreement with the UTF-8 encoder of the Lean library -/

theorem u8_or_toNat (a b : UInt8) : (a ||| b).toNat = a.toNat ||| b.toNat := BitVec.toNat_or ..
theorem u32_toUInt8_toNat (v : UInt32) : v.toUInt8.toNat = v.toNat % 256 := by
  show (BitVec.ofNat 8 v.toNat).toNat = _
  simp
theorem u32_shr6_toNat (v : UInt32) : (v >>> 6).toNat = v.toNat >>> 6 := by
  show (v.toBitVec >>> (UInt32.mod 6 32).toBitVec).toNat = _
  rw [BitVec.ushiftRight_eq', BitVec.toNat_ushiftRight]; rfl
theorem u32_shr12_toNat (v : UInt32) : (v >>> 12).toNat = v.toNat >>> 12 := by
  show (v.toBitVec >>> (UInt32.mod 12 32).toBitVec).toNat = _
  rw [BitVec.ushiftRight_eq', BitVec.toNat_ushiftRight]; rfl
theorem u32_shr18_toNat (v : UInt32) : (v >>> 18).toNat = v.toNat >>> 18 := by
  show (v.toBitVec >>> (UInt32.mod 18 32).toBitVec).toNat = _
  rw [BitVec.ushiftRight_eq', BitVec.toNat_ushiftRight]; rfl

theorem mod_256_and (x m : Nat) (hm : m < 256) : x % 256 &&& m = x &&& m := by
  apply Nat.eq_of_testBit_eq
  intro i
  simp only [Nat.testBit_and]
  have h256 : (256 : Nat) = 2 ^ 8 := by norm_num
  rw [h256, Nat.testBit_mod_two_pow]
  by_cases hi : i < 8
  · simp [hi]
  · have : m.testBit i = false := by
      apply Nat.testBit_lt_two_pow
      calc m < 2 ^ 8 := by omega
        _ ≤ 2 ^ i := Nat.pow_le_pow_right (by norm_num) (by omega)
    simp [this]

theorem u8_byte (w : UInt32) (m hi : UInt8) :
    (w.toUInt8 &&& m ||| hi).toNat = (w.toNat &&& m.toNat) ||| hi.toNat := by
  rw [u8_or_toNat, UInt8.and_toNat, u32_toUInt8_toNat, mod_256_and _ _ (UInt8.toNat_lt_size m)]

/-- The bytes Lean's own UTF-8 encoder gives for a character are the bytes of
`codepointToUTF8` for its code point. -/
theorem codepointToUTF8_eq_utf8EncodeChar (c : Char) :
    (String.utf8EncodeChar c).map UInt8.toNat = codepointToUTF8 c.toNat := by
  have hc : c.toNat = c.val.toNat := rfl
  have hvalid : c.val.toNat ≤ 0x10FFFF := by
    have := c.valid
    rcases this with h | h
    · have : c.val.toNat < 0xd800 := h
      omega
    · have : c.val.toNat < 0x110000 := h.2
      omega
  rw [codepointToUTF8_arith]
  unfold String.utf8EncodeChar
  rw [hc]
  simp only [UInt32.le_def, BitVec.le_def]
  have e1 : (127 : UInt32).toBitVec.toNat = 127 := rfl
  have e2 : (2047 : UInt32).toBitVec.toNat = 2047 := rfl
  have e3 : (65535 : UInt32).toBitVec.toNat = 65535 := rfl
  have ev : c.val.toBitVec.toNat = c.val.toNat := rfl
  have m31 : (31 : UInt8).toNat = 31 := rfl
  have m63 : (63 : UInt8).toNat = 63 := rfl
  have m15 : (15 : UInt8).toNat = 15 := rfl
  have m7 : (7 : UInt8).toNat = 7 := rfl
  have h192 : (192 : UInt8).toNat = 192 := rfl
  have h128 : (128 : UInt8).toNat = 128 := rfl
  have h224 : (224 : UInt8).toNat = 224 := rfl
  have h240 : (240 : UInt8).toNat = 240 := rfl
  simp only [e1, e2, e3, ev]
  generalize c.val = v at hvalid ⊢
  have comm : ∀ a b : Nat, a ||| b = b ||| a := Nat.lor_comm
  split
  · simp only [List.map_cons, List.map_nil, u32_toUInt8_toNat]
    congr 1; omega
  split
  · simp only [List.map_cons, List.map_nil, u8_byte, u32_shr6_toNat, m31, m63, h192, h128,
      and_63, and_31, Nat.shiftRight_eq_div_pow]
    rw [comm, or_add_32 _ (Nat.mod_lt _ (by norm_num)), comm,
      or_add_64 _ (Nat.mod_lt _ (by norm_num))]
    congr 1
    · omega
  split
  · simp only [List.map_cons, List.map_nil, u8_byte, u32_shr6_toNat, u32_shr12_toNat, m15, m63,
      h224, h128, and_63, and_15, Nat.shiftRight_eq_div_pow]
    rw [comm, or_add_16 _ (Nat.mod_lt _ (by norm_num)), comm (_ % 64),
      or_add_64 _ (Nat.mod_lt _ (by norm_num)), comm (_ % 64),
      or_add_64 _ (Nat.mod_lt _ (by norm_num))]
    congr 1
    · omega
  · simp only [List.map_cons, List.map_nil, u8_byte, u32_shr6_toNat, u32_shr12_toNat,
      u32_shr18_toNat, m7, m63, h240, h128, and_63, and_7, Nat.shiftRight_eq_div_pow]
    rw [comm, or_add_8 _ (Nat.mod_lt _ (by norm_num)), comm (_ % 64),
      or_add_64 _ (Nat.mod_lt _ (by norm_num)), comm (_ % 64),
      or_add_64 _ (Nat.mod_lt _ (by norm_num)), comm (_ % 64),
      or_add_64 _ (Nat.mod_lt _ (by norm_num))]
    congr 1
    · omega
theorem toNat_ofNat_scalar (v : Nat) (hv : isScalarValue v = true) : (Char.ofNat v).toNat = v := by
  have hs : v ≤ 0x10FFFF ∧ ¬ (0xD800 ≤ v ∧ v ≤ 0xDFFF) := by
    unfold isScalarValue at hv
    exact of_decide_eq_true hv
  have hvalid : v.isValidChar := by
    unfold Nat.isValidChar
    omega
  unfold Char.ofNat
  rw [dif_pos hvalid]
  show (Char.ofNatAux v hvalid).val.toNat = v
  unfold Char.ofNatAux
  show (BitVec.ofNatLt v _).toNat = v
  simp

/-! ## Reading hexadecimal tokens -/

theorem intercalate_single (tok : Str) : List.intercalate [45] [tok] = tok := by
  simp [List.intercalate, List.intersperse]

theorem intercalate_cons_cons (tok tok' : Str) (ts : List Str) :
    List.intercalate [45] (tok :: tok' :: ts)
      = tok ++ 45 :: List.intercalate [45] (tok' :: ts) := by
  simp [List.intercalate, List.intersperse]

theorem hexDigit_lt {c d : Nat} (h : hexDigit c = some d) : d < 16 := by
  unfold hexDigit at h
  split at h
  · simp only [Option.some.injEq] at h; omega
  split at h
  · simp only [Option.some.injEq] at h; omega
  split at h
  · simp only [Option.some.injEq] at h; omega
  · exact absurd h (by simp)

theorem hexDigit_isSome_range {c : Nat} (h : (hexDigit c).isSome = true) :
    (48 ≤ c ∧ c ≤ 57) ∨ (97 ≤ c ∧ c ≤ 102) ∨ (65 ≤ c ∧ c ≤ 70) := by
  unfold hexDigit at h
  split at h
  · left; assumption
  split at h
  · right; left; assumption
  split at h
  · right; right; assumption
  · simp at h

theorem hexValue_lt (tok : Str) (h : ∀ c ∈ tok, (hexDigit c).isSome = true) :
    hexValue tok < 16 ^ tok.length := by
  induction tok with
  | nil => simp [hexValue]
  | cons c cs ih =>
    have hc := h c (List.mem_cons_self _ _)
    obtain ⟨d, hd⟩ := Option.isSome_iff_exists.mp hc
    have hlt := hexDigit_lt hd
    have ih' := ih (fun x hx => h x (List.mem_cons_of_mem _ hx))
    simp only [hexValue, hd, Option.getD_some, List.length_cons, pow_succ]
    nlinarith

theorem hexRun_digits (tok : Str) (h : ∀ c ∈ tok, (hexDigit c).isSome = true) :
    ∀ acc, hexRun tok acc = acc * 16 ^ tok.length + hexValue tok := by
  induction tok with
  | nil => intro acc; simp [hexRun, hexValue]
  | cons c cs ih =>
    intro acc
    have hc := h c (List.mem_cons_self _ _)
    obtain ⟨d, hd⟩ := Option.isSome_iff_exists.mp hc
    simp only [hexRun, hd, hexValue, Option.getD_some, List.length_cons, pow_succ]
    rw [ih (fun x hx => h x (List.mem_cons_of_mem _ hx))]
    ring

/-- The extraction reads a token of one to eight hexadecimal digits as the number
it spells, whatever the variable held before. -/
theorem extractHex_spelling (tok : Str) (v cp0 : Nat) (h : isHexSpelling tok v = true) :
    extractHex tok cp0 = v := by
  unfold isHexSpelling at h
  obtain ⟨h1, h8, hd, hv⟩ := of_decide_eq_true h
  cases tok with
  | nil => simp at h1
  | cons c cs =>
    have hc := hexDigit_isSome_range (hd c (List.mem_cons_self _ _))
    have hsp : isSpace c = false := by
      unfold isSpace
      rw [decide_eq_false_iff_not]
      omega
    have hrun := hexRun_digits (c :: cs) hd 0
    have hlt := hexValue_lt (c :: cs) hd
    have hpow : 16 ^ (c :: cs).length ≤ 16 ^ 8 := Nat.pow_le_pow_right (by norm_num) h8
    have hpre : dropHexPrefix (c :: cs) = c :: cs := by
      unfold dropHexPrefix
      split
      · rename_i cs' heq
        simp only [List.cons.injEq] at heq
        have := hexDigit_isSome_range (hd 120 (by rw [heq.2]; simp))
        omega
      · rename_i cs' heq
        simp only [List.cons.injEq] at heq
        have := hexDigit_isSome_range (hd 88 (by rw [heq.2]; simp))
        omega
      · rfl
    have hsign : ¬ (c = 45 ∨ c = 43) := by omega
    have hneg : ¬ (c = 45) := by omega
    have hfit : ¬ (v > 0xFFFFFFFF) := by
      have h16 : (16 : Nat) ^ 8 = 4294967296 := by norm_num
      have hvlt : v < 16 ^ 8 := by
        rw [← hv]
        exact lt_of_lt_of_le hlt hpow
      omega
    unfold extractHex
    rw [List.dropWhile_cons_of_neg (by simp [hsp])]
    simp only [if_neg hsign, hpre, hrun, zero_mul, zero_add, hv, if_neg hfit,
      decide_eq_true_eq, if_neg hneg]

theorem readSegment_no_dash (tok : Str) (h : ∀ c ∈ tok, c ≠ 45) :
    readSegment tok = (tok, []) := by
  induction tok with
  | nil => rfl
  | cons c cs ih =>
    have hc := h c (List.mem_cons_self _ _)
    simp only [readSegment, if_neg hc, ih (fun x hx => h x (List.mem_cons_of_mem _ hx))]

theorem readSegment_dash (tok rest : Str) (h : ∀ c ∈ tok, c ≠ 45) :
    readSegment (tok ++ 45 :: rest) = (tok, rest) := by
  induction tok with
  | nil => simp [readSegment]
  | cons c cs ih =>
    have hc := h c (List.mem_cons_self _ _)
    have ih' := ih (fun x hx => h x (List.mem_cons_of_mem _ hx))
    show readSegment (c :: (cs ++ 45 :: rest)) = (c :: cs, rest)
    simp only [readSegment, if_neg hc, ih']

theorem spelling_no_dash {tok : Str} {v : Nat} (h : isHexSpelling tok v = true) :
    ∀ c ∈ tok, c ≠ 45 := by
  unfold isHexSpelling at h
  obtain ⟨_, _, hd, _⟩ := of_decide_eq_true h
  intro c hc
  have := hexDigit_isSome_range (hd c hc)
  omega

theorem spelling_ne_nil {tok : Str} {v : Nat} (h : isHexSpelling tok v = true) : tok ≠ [] := by
  unfold isHexSpelling at h
  obtain ⟨h1, _⟩ := of_decide_eq_true h
  intro e
  rw [e] at h1
  simp at h1

theorem parseLoop_nil (uninit : Nat → Nat) (fuel n : Nat) (result : Str) :
    parseLoop uninit fuel n [] result = result := by
  cases fuel <;> simp [parseLoop, getline]

theorem parseLoop_tokens (uninit : Nat → Nat) (tokens : List Str) (values : List Nat)
    (h : List.Forall₂ (fun tok v => isHexSpelling tok v = true) tokens values) :
    ∀ (fuel n : Nat) (result : Str), (List.intercalate [45] tokens).length ≤ fuel →
      parseLoop uninit fuel n (List.intercalate [45] tokens) result
        = result ++ (values.map codepointToUTF8).flatten := by
  induction h with
  | nil =>
    intro fuel n result _
    simp [List.intercalate, parseLoop_nil]
  | @cons tok v ts vs htok hrest ih =>
    intro fuel n result hfuel
    have hne := spelling_ne_nil htok
    have hnd := spelling_no_dash htok
    obtain ⟨c, cs, hcs⟩ : ∃ c cs, tok = c :: cs := by
      cases tok with
      | nil => exact absurd rfl hne
      | cons c cs => exact ⟨c, cs, rfl⟩
    cases hrest with
    | nil =>
      rw [intercalate_single] at hfuel ⊢
      cases fuel with
      | zero => rw [hcs] at hfuel; simp at hfuel
      | succ fuel =>
        have hg : getline tok = some (tok, []) := by
          rw [hcs, getline, ← hcs, readSegment_no_dash tok hnd]
        simp only [parseLoop, hg, parseLoop_nil, extractHex_spelling tok v _ htok]
        simp
    | @cons tok' v' ts' vs' htok' hrest' =>
      rw [intercalate_cons_cons] at hfuel ⊢
      cases fuel with
      | zero => rw [hcs] at hfuel; simp at hfuel
      | succ fuel =>
        have hg : getline (tok ++ 45 :: List.intercalate [45] (tok' :: ts'))
            = some (tok, List.intercalate [45] (tok' :: ts')) := by
          rw [← readSegment_dash tok _ hnd, hcs]
          rfl
        simp only [parseLoop, hg, extractHex_spelling tok v _ htok]
        rw [ih fuel (n + 1) _ (by simp at hfuel; omega)]
        simp


theorem parseHexToEmoji_spelling (uninit : Nat → Nat) (tok : Str) (v : Nat)
    (h : isHexSpelling tok v = true) :
    parseHexToEmoji uninit tok = codepointToUTF8 v := by
  have h1 := parseLoop_tokens uninit [tok] [v] (List.Forall₂.cons h List.Forall₂.nil)
    tok.length 0 [] (by rw [intercalate_single])
  rw [intercalate_single] at h1
  unfold parseHexToEmoji
  rw [h1]
  simp

/-- C5: for every Unicode scalar value `v`, `codepointToUTF8 v` is the UTF-8
encoding of `v`: decoding its bytes as UTF-8 gives back the single value `v`,
and they are the bytes the UTF-8 encoder of the Lean library gives for the
character `v`; `parseHexToEmoji` of a hexadecimal spelling of `v` returns these
bytes, as for `41`, `7FF`, `FFFF` and `1F600`. -/
theorem codepointToUTF8_is_utf8 (uninit : Nat → Nat) (tok : Str) (v : Nat)
    (hv : isScalarValue v = true) (htok : isHexSpelling tok v = true) :
    utf8Decode (codepointToUTF8 v) = some [v]
    ∧ codepointToUTF8 v = (String.utf8EncodeChar (Char.ofNat v)).map UInt8.toNat
    ∧ parseHexToEmoji uninit tok = codepointToUTF8 v
    ∧ utf8Decode (parseHexToEmoji uninit tok) = some [v]
    ∧ parseHexToEmoji uninit (ascii "41") = [0x41]
    ∧ parseHexToEmoji uninit (ascii "7FF") = [0xDF, 0xBF]
    ∧ parseHexToEmoji uninit (ascii "FFFF") = [0xEF, 0xBF, 0xBF]
    ∧ parseHexToEmoji uninit (ascii "1F600") = [0xF0, 0x9F, 0x98, 0x80] := by
  have hdec : utf8Decode (codepointToUTF8 v) = some [v] := by
    have h := utf8Decode_codepoints [v] (by simpa using hv)
    simpa using h
  have hparse := parseHexToEmoji_spelling uninit tok v htok
  have henc : codepointToUTF8 v = (String.utf8EncodeChar (Char.ofNat v)).map UInt8.toNat := by
    rw [codepointToUTF8_eq_utf8EncodeChar, toNat_ofNat_scalar v hv]
  refine ⟨hdec, henc, hparse, by rw [hparse]; exact hdec, ?_, ?_, ?_, ?_⟩
  · rw [parseHexToEmoji_spelling uninit (ascii "41") 0x41 (by decide)]; decide
  · rw [parseHexToEmoji_spelling uninit (ascii "7FF") 0x7FF (by decide)]; decide
  · rw [parseHexToEmoji_spelling uninit (ascii "FFFF") 0xFFFF (by decide)]; decide
  · rw [parseHexToEmoji_spelling uninit (ascii "1F600") 0x1F600 (by decide)]; decide

theorem codepointToUTF8_is_utf8_witness :
    isScalarValue 0x1F600 = true ∧ isHexSpelling (ascii "1f600") 0x1F600 = true
    ∧ (utf8Decode (codepointToUTF8 0x1F600) = some [0x1F600]
      ∧ codepointToUTF8 0x1F600
          = (String.utf8EncodeChar (Char.ofNat 0x1F600)).map UInt8.toNat
      ∧ parseHexToEmoji (fun _ => 0) (ascii "1f600") = codepointToUTF8 0x1F600
      ∧ utf8Decode (parseHexToEmoji (fun _ => 0) (ascii "1f600")) = some [0x1F600]
      ∧ parseHexToEmoji (fun _ => 0) (ascii "41") = [0x41]
      ∧ parseHexToEmoji (fun _ => 0) (ascii "7FF") = [0xDF, 0xBF]
      ∧ parseHexToEmoji (fun _ => 0) (ascii "FFFF") = [0xEF, 0xBF, 0xBF]
      ∧ parseHexToEmoji (fun _ => 0) (ascii "1F600") = [0xF0, 0x9F, 0x98, 0x80]) :=
  ⟨by decide, by decide,
    codepointToUTF8_is_utf8 (fun _ => 0) (ascii "1f600") 0x1F600 (by decide) (by decide)⟩

/-- C10: for tokens that are hexadecimal spellings, of one to eight digits, of
the values `c_1, ..., c_k`, `parseHexToEmoji` of the tokens joined with `-` is
the concatenation of `codepointToUTF8 c_1`, ..., `codepointToUTF8 c_k` in that
order; `parseHexToEmoji "1F1E6-1F1E8"` is the eight bytes that encode U+1F1E6
and then U+1F1E8. -/
theorem parseHexToEmoji_tokens (uninit : Nat → Nat) (tokens : List Str) (values : List Nat)
    (h : List.Forall₂ (fun tok v => isHexSpelling tok v = true) tokens values) :
    parseHexToEmoji uninit (List.intercalate [45] tokens)
        = (values.map codepointToUTF8).flatten
    ∧ parseHexToEmoji uninit (ascii "1F1E6-1F1E8")
        = [0xF0, 0x9F, 0x87, 0xA6, 0xF0, 0x9F, 0x87, 0xA8]
    ∧ utf8Decode [0xF0, 0x9F, 0x87, 0xA6, 0xF0, 0x9F, 0x87, 0xA8] = some [0x1F1E6, 0x1F1E8] := by
  refine ⟨?_, ?_, by decide⟩
  · unfold parseHexToEmoji
    rw [parseLoop_tokens uninit tokens values h _ 0 [] (le_refl _)]
    exact List.nil_append _
  · have h2 : List.Forall₂ (fun tok v => isHexSpelling tok v = true)
        [ascii "1F1E6", ascii "1F1E8"] [0x1F1E6, 0x1F1E8] :=
      List.Forall₂.cons (by decide) (List.Forall₂.cons (by decide) List.Forall₂.nil)
    have h3 := parseLoop_tokens uninit _ _ h2 (ascii "1F1E6-1F1E8").length 0 [] (by decide)
    have h4 : List.intercalate [45] [ascii "1F1E6", ascii "1F1E8"] = ascii "1F1E6-1F1E8" := by
      decide
    rw [h4] at h3
    unfold parseHexToEmoji
    rw [h3]
    decide

theorem parseHexToEmoji_tokens_witness :
    List.Forall₂ (fun tok v => isHexSpelling tok v = true)
      [ascii "0023", ascii "fe0f", ascii "20E3"] [0x23, 0xFE0F, 0x20E3]
    ∧ (parseHexToEmoji (fun _ => 0) (List.intercalate [45]
          [ascii "0023", ascii "fe0f", ascii "20E3"])
        = ([0x23, 0xFE0F, 0x20E3].map codepointToUTF8).flatten
      ∧ parseHexToEmoji (fun _ => 0) (ascii "1F1E6-1F1E8")
        = [0xF0, 0x9F, 0x87, 0xA6, 0xF0, 0x9F, 0x87, 0xA8]
      ∧ utf8Decode [0xF0, 0x9F, 0x87, 0xA6, 0xF0, 0x9F, 0x87, 0xA8]
        = some [0x1F1E6, 0x1F1E8]) :=
  ⟨List.Forall₂.cons (by decide) (List.Forall₂.cons (by decide)
      (List.Forall₂.cons (by decide) List.Forall₂.nil)),
    parseHexToEmoji_tokens (fun _ => 0) _ _
      (List.Forall₂.cons (by decide) (List.Forall₂.cons (by decide)
        (List.Forall₂.cons (by decide) List.Forall₂.nil)))⟩

/-! ## What the loader adds to the store -/

theorem pushStrings_eq (out : Str) : ∀ (elems : List Json) (store : List EmojiEntry),
    pushStrings out elems store
      = store ++ (stringElements elems).map (fun t => { trigger := t, output := out }) := by
  intro elems
  induction elems with
  | nil => intro store; simp [pushStrings, stringElements]
  | cons e rest ih =>
    intro store
    cases e <;> simp [pushStrings, stringElements, Json.getString, ih]

theorem stringField_eq (x : Option Json) : stringField x = (Json.getString x).toList := by
  rcases x with _ | x
  · rfl
  · cases x <;> rfl

theorem stringArrayField_eq (x : Option Json) :
    stringArrayField x = ((Json.getArray x).map stringElements).getD [] := by
  rcases x with _ | x
  · rfl
  · cases x <;> rfl

theorem recordOutput_eq (fields : List (Str × Json)) :
    recordOutput (.object fields)
      = Json.getString (elementAtKey (atKey fields (ascii "code_points")) (ascii "output")) := by
  unfold recordOutput elementAtKey
  simp only
  generalize atKey fields (ascii "code_points") = cp
  rcases cp with _ | cp
  · rfl
  · cases cp with
    | object cpf =>
      simp only
      generalize atKey cpf (ascii "output") = o
      rcases o with _ | o
      · rfl
      · cases o <;> rfl
    | _ => rfl

theorem processRecord_eq (uninit : Nat → Nat) (value : Json) (store : List EmojiEntry) :
    processRecord uninit value store = store ++ recordEntries uninit value := by
  cases value with
  | object fields =>
    unfold processRecord recordEntries recordTriggers
    rw [recordOutput_eq]
    simp only [stringField_eq, stringArrayField_eq]
    cases Json.getString (elementAtKey (atKey fields (ascii "code_points")) (ascii "output")) with
    | none => simp
    | some h =>
      simp only
      cases Json.getString (atKey fields (ascii "shortname")) <;>
      cases Json.getArray (atKey fields (ascii "shortname_alternates")) <;>
      cases Json.getArray (atKey fields (ascii "ascii")) <;>
      simp [pushStrings_eq]
  | _ => simp [processRecord, recordEntries]

theorem loadLoop_eq (uninit : Nat → Nat → Nat) : ∀ (fields : List (Str × Json)) (n : Nat)
    (store : List EmojiEntry),
    loadLoop uninit n fields store = store ++ documentEntries uninit n fields := by
  intro fields
  induction fields with
  | nil => intro n store; simp [loadLoop, documentEntries]
  | cons kv rest ih =>
    intro n store
    obtain ⟨k, v⟩ := kv
    simp only [loadLoop, documentEntries, ih, processRecord_eq, List.append_assoc]

theorem documentEntries_append (uninit : Nat → Nat → Nat) :
    ∀ (pre post : List (Str × Json)) (n : Nat),
      documentEntries uninit n (pre ++ post)
        = documentEntries uninit n pre ++ documentEntries uninit (n + pre.length) post := by
  intro pre
  induction pre with
  | nil => intro post n; simp [documentEntries]
  | cons kv rest ih =>
    intro post n
    obtain ⟨k, v⟩ := kv
    have hn : n + 1 + rest.length = n + (rest.length + 1) := by omega
    show recordEntries (uninit n) v ++ documentEntries uninit (n + 1) (rest ++ post)
      = (recordEntries (uninit n) v ++ documentEntries uninit (n + 1) rest)
        ++ documentEntries uninit (n + (rest.length + 1)) post
    rw [ih, hn, List.append_assoc]

theorem load_object (uninit : Nat → Nat → Nat) (fields : List (Str × Json))
    (store : List EmojiEntry) :
    load uninit (some (.object fields)) store
      = (true, store ++ documentEntries uninit 0 fields) := by
  simp only [load, loadLoop_eq]

theorem recordEntries_of_output (uninit : Nat → Nat) (fields : List (Str × Json)) (h : Str)
    (hout : recordOutput (.object fields) = some h) :
    recordEntries uninit (.object fields)
      = (recordTriggers fields).map
          (fun t => { trigger := t, output := parseHexToEmoji uninit h }) := by
  simp only [recordEntries, hout]

/-- C6: a record with a string `code_points.output` contributes, after the
entries of the records before it and before those of the records after it, one
entry for its `shortname` when that is a string, then one for each string
element of `shortname_alternates`, then one for each string element of `ascii`,
all with the output `parseHexToEmoji` gives for the hexadecimal string; the
example record yields the three entries `grinning`, `:D`, `:-)`. -/
theorem load_record_entries (uninit : Nat → Nat → Nat) (pre post : List (Str × Json))
    (key : Str) (fields : List (Str × Json)) (h : Str) (store : List EmojiEntry)
    (hout : recordOutput (.object fields) = some h) :
    load uninit (some (.object (pre ++ (key, .object fields) :: post))) store
      = (true, (load uninit (some (.object pre)) store).2
          ++ (recordTriggers fields).map
              (fun t => { trigger := t, output := parseHexToEmoji (uninit pre.length) h })
          ++ loadLoop uninit (pre.length + 1) post [])
    ∧ processRecord (uninit pre.length) (.object fields) store
      = store ++ (recordTriggers fields).map
          (fun t => { trigger := t, output := parseHexToEmoji (uninit pre.length) h })
    ∧ load uninit (some (.object [(key, grinningRecord)])) []
      = (true, [{ trigger := ascii "grinning", output := [0xF0, 0x9F, 0x98, 0x80] },
                { trigger := ascii ":D", output := [0xF0, 0x9F, 0x98, 0x80] },
                { trigger := ascii ":-)", output := [0xF0, 0x9F, 0x98, 0x80] }]) := by
  refine ⟨?_, ?_, ?_⟩
  · rw [load_object, load_object, documentEntries_append]
    simp only [documentEntries, loadLoop_eq, recordEntries_of_output _ fields h hout,
      Nat.zero_add, List.nil_append, List.append_assoc]
  · rw [processRecord_eq, recordEntries_of_output _ fields h hout]
  · rw [load_object]
    have hrec : recordOutput grinningRecord = some (ascii "1F600") := by decide
    have htr : recordTriggers [
        (ascii "code_points", .object [(ascii "output", .string (ascii "1F600"))]),
        (ascii "shortname", .string (ascii "grinning")),
        (ascii "shortname_alternates", .array [.string (ascii ":D")]),
        (ascii "ascii", .array [.string (ascii ":-)")])]
        = [ascii "grinning", ascii ":D", ascii ":-)"] := by decide
    have hp := parseHexToEmoji_spelling (uninit 0) (ascii "1F600") 0x1F600 (by decide)
    have hc : codepointToUTF8 0x1F600 = [0xF0, 0x9F, 0x98, 0x80] := by decide
    simp only [documentEntries, List.nil_append, List.append_nil]
    unfold grinningRecord at hrec ⊢
    rw [recordEntries_of_output _ _ _ hrec, htr, hp, hc]
    rfl

theorem load_record_entries_witness :
    recordOutput (.object [
      (ascii "code_points", .object [(ascii "output", .string (ascii "1F1E6-1F1E8"))]),
      (ascii "shortname", .uint64 7),
      (ascii "ascii", .array [.string (ascii "a"), .null, .string (ascii "b")])])
      = some (ascii "1F1E6-1F1E8")
    ∧ (load (fun _ _ => 0) (some (.object ([(ascii "k0", grinningRecord)] ++
        (ascii "k1", .object [
          (ascii "code_points", .object [(ascii "output", .string (ascii "1F1E6-1F1E8"))]),
          (ascii "shortname", .uint64 7),
          (ascii "ascii", .array [.string (ascii "a"), .null, .string (ascii "b")])])
        :: [(ascii "k2", grinningRecord)]))) []
      = (true, (load (fun _ _ => 0) (some (.object [(ascii "k0", grinningRecord)])) []).2
          ++ (recordTriggers [
            (ascii "code_points", .object [(ascii "output", .string (ascii "1F1E6-1F1E8"))]),
            (ascii "shortname", .uint64 7),
            (ascii "ascii", .array [.string (ascii "a"), .null, .string (ascii "b")])]).map
              (fun t => { trigger := t,
                          output := parseHexToEmoji ((fun _ _ => 0)
                            [(ascii "k0", grinningRecord)].length) (ascii "1F1E6-1F1E8") })
          ++ loadLoop (fun _ _ => 0) ([(ascii "k0", grinningRecord)].length + 1)
              [(ascii "k2", grinningRecord)] [])
    ∧ processRecord ((fun _ _ => 0) [(ascii "k0", grinningRecord)].length) (.object [
          (ascii "code_points", .object [(ascii "output", .string (ascii "1F1E6-1F1E8"))]),
          (ascii "shortname", .uint64 7),
          (ascii "ascii", .array [.string (ascii "a"), .null, .string (ascii "b")])]) []
      = [] ++ (recordTriggers [
            (ascii "code_points", .object [(ascii "output", .string (ascii "1F1E6-1F1E8"))]),
            (ascii "shortname", .uint64 7),
            (ascii "ascii", .array [.string (ascii "a"), .null, .string (ascii "b")])]).map
              (fun t => { trigger := t,
                          output := parseHexToEmoji ((fun _ _ => 0)
                            [(ascii "k0", grinningRecord)].length) (ascii "1F1E6-1F1E8") })
    ∧ load (fun _ _ => 0) (some (.object [(ascii "k1", grinningRecord)])) []
      = (true, [{ trigger := ascii "grinning", output := [0xF0, 0x9F, 0x98, 0x80] },
                { trigger := ascii ":D", output := [0xF0, 0x9F, 0x98, 0x80] },
                { trigger := ascii ":-)", output := [0xF0, 0x9F, 0x98, 0x80] }])) :=
  ⟨by decide,
    load_record_entries (fun _ _ => 0) [(ascii "k0", grinningRecord)]
      [(ascii "k2", grinningRecord)] (ascii "k1") _ (ascii "1F1E6-1F1E8") [] (by decide)⟩

/-- C9: when the root of the parsed document is not an object, `load` returns
`false` and leaves the store as it was, with the same size; when the root is an
object, `load` returns `true`. -/
theorem load_root_shape (uninit : Nat → Nat → Nat) (root : Json) (store : List EmojiEntry) :
    (root.isObject = false ∧ load uninit (some root) store = (false, store)
      ∧ size (load uninit (some root) store).2 = size store)
    ∨ (root.isObject = true ∧ (load uninit (some root) store).1 = true) := by
  cases root with
  | object fields => right; exact ⟨rfl, rfl⟩
  | _ => left; exact ⟨rfl, rfl, rfl⟩

theorem recordEntries_omitted (uninit : Nat → Nat) (value : Json)
    (hbad : isOmittedRecord value = true) : recordEntries uninit value = [] := by
  cases value with
  | object fields =>
    unfold isOmittedRecord at hbad
    unfold recordEntries
    cases hout : recordOutput (.object fields) with
    | none => rfl
    | some h =>
      simp only [hout, Option.isNone_some, Bool.false_or, Bool.and_eq_true,
        Option.isNone_iff_eq_none] at hbad
      obtain ⟨⟨h1, h2⟩, h3⟩ := hbad
      simp [recordTriggers, h1, h2, h3, stringField, stringArrayField]
  | _ => rfl

theorem documentEntries_skip_before (uninit : Nat → Nat → Nat) (k : Nat) :
    ∀ (fields : List (Str × Json)) (n : Nat), n + fields.length ≤ k →
      documentEntries (skipField uninit k) n fields = documentEntries uninit n fields := by
  intro fields
  induction fields with
  | nil => intro n _; rfl
  | cons kv rest ih =>
    intro n hn
    obtain ⟨key, v⟩ := kv
    simp only [List.length_cons] at hn
    have hlt : n < k := by omega
    simp only [documentEntries, ih (n + 1) (by omega)]
    simp only [skipField, if_pos hlt]

theorem documentEntries_skip_after (uninit : Nat → Nat → Nat) (k : Nat) :
    ∀ (fields : List (Str × Json)) (n : Nat), k ≤ n →
      documentEntries (skipField uninit k) n fields = documentEntries uninit (n + 1) fields := by
  intro fields
  induction fields with
  | nil => intro n _; rfl
  | cons kv rest ih =>
    intro n hn
    obtain ⟨key, v⟩ := kv
    have hlt : ¬ n < k := by omega
    simp only [documentEntries, ih (n + 1) (by omega)]
    simp only [skipField, if_neg hlt]

/-- C8: with an object root `load` succeeds, and a record that is not an object,
or has no string `code_points.output`, or has one but none of `shortname`,
`shortname_alternates`, `ascii`, adds nothing to the store; the outcome is the one
of the document without that record. -/
theorem load_tolerates_bad_record (uninit : Nat → Nat → Nat) (pre post : List (Str × Json))
    (key : Str) (value : Json) (store : List EmojiEntry)
    (hbad : isOmittedRecord value = true) :
    (∀ fields : List (Str × Json), (load uninit (some (.object fields)) store).1 = true)
    ∧ processRecord (uninit pre.length) value store = store
    ∧ load uninit (some (.object (pre ++ (key, value) :: post))) store
      = load (skipField uninit pre.length) (some (.object (pre ++ post))) store := by
  refine ⟨fun _ => rfl, ?_, ?_⟩
  · rw [processRecord_eq, recordEntries_omitted _ _ hbad, List.append_nil]
  · rw [load_object, load_object, documentEntries_append, documentEntries_append]
    simp only [documentEntries, recordEntries_omitted _ _ hbad, List.nil_append, Nat.zero_add]
    rw [documentEntries_skip_before uninit pre.length pre 0 (by omega),
      documentEntries_skip_after uninit pre.length post pre.length (le_refl _)]

theorem load_tolerates_bad_record_witness :
    isOmittedRecord (.object [(ascii "code_points", .object [(ascii "output", .uint64 3)]),
      (ascii "shortname", .string (ascii "x"))]) = true
    ∧ ((∀ fields : List (Str × Json),
          (load (fun _ _ => 0) (some (.object fields)) []).1 = true)
      ∧ processRecord ((fun _ _ => 0) [(ascii "k0", grinningRecord)].length)
          (.object [(ascii "code_points", .object [(ascii "output", .uint64 3)]),
            (ascii "shortname", .string (ascii "x"))]) [] = []
      ∧ load (fun _ _ => 0) (some (.object ([(ascii "k0", grinningRecord)] ++
          (ascii "k1", .object [(ascii "code_points", .object [(ascii "output", .uint64 3)]),
            (ascii "shortname", .string (ascii "x"))]) :: [(ascii "k2", grinningRecord)]))) []
        = load (skipField (fun _ _ => 0) [(ascii "k0", grinningRecord)].length)
            (some (.object ([(ascii "k0", grinningRecord)] ++ [(ascii "k2", grinningRecord)])))
            []) :=
  ⟨by decide,
    load_tolerates_bad_record (fun _ _ => 0) [(ascii "k0", grinningRecord)]
      [(ascii "k2", grinningRecord)] (ascii "k1") _ [] (by decide)⟩
theorem parseHexToEmoji_tokens_eq (uninit : Nat → Nat) (tokens : List Str) (values : List Nat)
    (h : List.Forall₂ (fun tok v => isHexSpelling tok v = true) tokens values) :
    parseHexToEmoji uninit (List.intercalate [45] tokens)
        = (values.map codepointToUTF8).flatten := by
  unfold parseHexToEmoji
  rw [parseLoop_tokens uninit tokens values h _ 0 [] (le_refl _)]
  simp

theorem mem_documentEntries (uninit : Nat → Nat → Nat) (e : EmojiEntry) :
    ∀ (fields : List (Str × Json)) (n : Nat), e ∈ documentEntries uninit n fields →
      ∃ (i : Nat) (key : Str) (recFields : List (Str × Json)) (h : Str),
        fields[i]? = some (key, .object recFields)
        ∧ recordOutput (.object recFields) = some h
        ∧ e.trigger ∈ recordTriggers recFields
        ∧ e.output = parseHexToEmoji (uninit (n + i)) h := by
  intro fields
  induction fields with
  | nil => intro n he; simp [documentEntries] at he
  | cons kv rest ih =>
    intro n he
    obtain ⟨key, v⟩ := kv
    simp only [documentEntries, List.mem_append] at he
    rcases he with he | he
    · cases v with
      | object recFields =>
        cases hout : recordOutput (.object recFields) with
        | none => simp [recordEntries, hout] at he
        | some h =>
          rw [recordEntries_of_output _ _ _ hout, List.mem_map] at he
          obtain ⟨t, ht, rfl⟩ := he
          exact ⟨0, key, recFields, h, by simp, hout, ht, rfl⟩
      | _ => simp [recordEntries] at he
    · obtain ⟨i, key', recFields, h, hi, hout, ht, ho⟩ := ih (n + 1) he
      refine ⟨i + 1, key', recFields, h, ?_, hout, ht, ?_⟩
      · simpa using hi
      · have hn : n + 1 + i = n + (i + 1) := by omega
        rw [hn] at ho
        exact ho

/-- Counterexample to C7 as stated: for a record whose hexadecimal string is
empty, or is the single token `110000`, `load` adds the trigger with an empty
output, which encodes no scalar value; for the string `D800` it adds the
trigger with three bytes that are not UTF-8. -/
theorem load_adds_entries_without_usable_output :
    load (fun _ _ => 0) (some (.object [(ascii "k", recordWithOutput [])])) []
        = (true, [{ trigger := ascii "x", output := [] }])
    ∧ ¬ (∃ vs : List Nat, vs ≠ [] ∧ utf8Decode [] = some vs)
    ∧ load (fun _ _ => 0) (some (.object [(ascii "k", recordWithOutput (ascii "110000"))])) []
        = (true, [{ trigger := ascii "x", output := [] }])
    ∧ load (fun _ _ => 0) (some (.object [(ascii "k", recordWithOutput (ascii "D800"))])) []
        = (true, [{ trigger := ascii "x", output := [0xED, 0xA0, 0x80] }])
    ∧ utf8Decode [0xED, 0xA0, 0x80] = none := by
  refine ⟨by decide, ?_, by decide, by decide, by decide⟩
  rintro ⟨vs, hne, hvs⟩
  have h0 : utf8Decode [] = some [] := rfl
  rw [h0] at hvs
  exact hne (Option.some.inj hvs).symm

/-- C7 (amended): after a successful load into an empty store every entry comes
from a record with a string `code_points.output`: its trigger is one of the
record's trigger variants and its output is `parseHexToEmoji` of that string,
which is a non-empty UTF-8 encoding of scalar values whenever the string is a
non-empty list of hexadecimal spellings of scalar values joined with `-`; and a
record whose string decodes to the empty output adds one entry per trigger
variant, each with the empty output. -/
theorem load_entry_outputs (uninit : Nat → Nat → Nat) (fields : List (Str × Json))
    (e : EmojiEntry) (he : e ∈ (load uninit (some (.object fields)) []).2) :
    (∃ (i : Nat) (key : Str) (recFields : List (Str × Json)) (h : Str),
      fields[i]? = some (key, .object recFields)
      ∧ recordOutput (.object recFields) = some h
      ∧ e.trigger ∈ recordTriggers recFields
      ∧ e.output = parseHexToEmoji (uninit i) h
      ∧ ∀ (tokens : List Str) (values : List Nat), values ≠ [] →
          List.Forall₂ (fun tok v => isHexSpelling tok v = true) tokens values →
          (∀ v ∈ values, isScalarValue v = true) → h = List.intercalate [45] tokens →
          utf8Decode e.output = some values)
    ∧ ∀ (n : Nat) (recFields : List (Str × Json)) (h : Str) (store : List EmojiEntry),
        recordOutput (.object recFields) = some h → parseHexToEmoji (uninit n) h = [] →
        processRecord (uninit n) (.object recFields) store
          = store ++ (recordTriggers recFields).map (fun t => { trigger := t, output := [] }) := by
  constructor
  · rw [load_object, List.nil_append] at he
    obtain ⟨i, key, recFields, h, hi, hout, ht, ho⟩ := mem_documentEntries uninit e fields 0 he
    rw [Nat.zero_add] at ho
    refine ⟨i, key, recFields, h, hi, hout, ht, ho, ?_⟩
    intro tokens values _ hsp hsc hh
    rw [ho, hh, (parseHexToEmoji_tokens_eq (uninit i) tokens values hsp)]
    exact utf8Decode_codepoints values hsc
  · intro n recFields h store hout hempty
    rw [processRecord_eq, recordEntries_of_output _ _ _ hout, hempty]

theorem load_entry_outputs_witness :
    ({ trigger := ascii ":D", output := [0xF0, 0x9F, 0x98, 0x80] } : EmojiEntry)
      ∈ (load (fun _ _ => 0) (some (.object [(ascii "k", grinningRecord)])) []).2
    ∧ ((∃ (i : Nat) (key : Str) (recFields : List (Str × Json)) (h : Str),
        [(ascii "k", grinningRecord)][i]? = some (key, .object recFields)
        ∧ recordOutput (.object recFields) = some h
        ∧ ascii ":D" ∈ recordTriggers recFields
        ∧ [0xF0, 0x9F, 0x98, 0x80] = parseHexToEmoji ((fun _ _ => 0) i) h
        ∧ ∀ (tokens : List Str) (values : List Nat), values ≠ [] →
            List.Forall₂ (fun tok v => isHexSpelling tok v = true) tokens values →
            (∀ v ∈ values, isScalarValue v = true) → h = List.intercalate [45] tokens →
            utf8Decode [0xF0, 0x9F, 0x98, 0x80] = some values)
      ∧ ∀ (n : Nat) (recFields : List (Str × Json)) (h : Str) (store : List EmojiEntry),
          recordOutput (.object recFields) = some h →
          parseHexToEmoji ((fun _ _ => 0) n) h = [] →
          processRecord ((fun _ _ => 0) n) (.object recFields) store
            = store ++ (recordTriggers recFields).map
                (fun t => { trigger := t, output := [] })) :=
  ⟨by decide,
    load_entry_outputs (fun _ _ => 0) [(ascii "k", grinningRecord)]
      { trigger := ascii ":D", output := [0xF0, 0x9F, 0x98, 0x80] } (by decide)⟩

/-! ## The fuel of the loops is enough -/

/-- More fuel than characters left in the trigger changes nothing in the scan. -/
theorem scanLoop_fuel (t q : Str) : ∀ (fuel i : Nat) (st : ScanState),
    t.length - i ≤ fuel → scanLoop t q fuel i st = scanLoop t q (t.length - i) i st := by
  intro fuel
  induction fuel with
  | zero =>
    intro i st h
    have h0 : t.length - i = 0 := by omega
    rw [h0]
  | succ fuel ih =>
    intro i st h
    by_cases hi : i < t.length
    · obtain ⟨m, hm⟩ : ∃ m, t.length - i = m + 1 := ⟨t.length - i - 1, by omega⟩
      rw [hm]
      simp only [scanLoop]
      split
      · have hm' : m = t.length - (i + 1) := by omega
        rw [ih (i + 1) _ (by omega), hm']
      · rfl
    · have h0 : t.length - i = 0 := by omega
      rw [h0]
      simp only [scanLoop]
      rw [if_neg (fun h => hi h.1)]

theorem readSegment_length (s : Str) : (readSegment s).2.length ≤ s.length - 1 := by
  induction s with
  | nil => simp [readSegment]
  | cons c cs ih =>
    unfold readSegment
    split
    · simp
    · simp only [List.length_cons, Nat.add_sub_cancel]
      omega

/-- More fuel than characters left in the stream changes nothing in the loop of
`parseHexToEmoji`. -/
theorem parseLoop_fuel (uninit : Nat → Nat) : ∀ (fuel n : Nat) (s result : Str),
    s.length ≤ fuel → parseLoop uninit fuel n s result
      = parseLoop uninit s.length n s result := by
  intro fuel
  induction fuel using Nat.strong_induction_on with
  | _ fuel ih =>
    intro n s result h
    cases s with
    | nil => rw [parseLoop_nil, parseLoop_nil]
    | cons c cs =>
      cases fuel with
      | zero => simp at h
      | succ fuel =>
        have hl := readSegment_length (c :: cs)
        simp only [List.length_cons, Nat.add_sub_cancel] at hl h
        simp only [List.length_cons, parseLoop, getline]
        rw [ih fuel (by omega) _ _ _ (by omega), ih cs.length (by omega) _ _ _ hl]

/-! ## Further properties of `search` -/

/-- The result of `search` is a rearrangement of the matching entries of the
store, also for the empty query, which nothing matches in `search`. -/
theorem search_perm_filter (S : StdSort) (store : List EmojiEntry) (q : Str) :
    (search S store q).Perm
      (store.filter (fun e => !q.isEmpty && isMatch e.trigger q)) := by
  unfold search
  by_cases hq : q.isEmpty = true
  · simp [hq]
  · simp only [hq, Bool.false_eq_true, if_false]
    have h1 := (S.perm (collect q store [])).map (fun r => r.entry)
    rw [collect_entries] at h1
    simpa [hq] using h1

/-- Of two entries of a result, the one with the greater score stands first. -/
theorem search_index_lt_of_score_gt (S : StdSort) (store : List EmojiEntry) (q : Str)
    (i j : Nat) (a b : EmojiEntry) (sa sb : Int)
    (ha : (search S store q)[i]? = some a) (hb : (search S store q)[j]? = some b)
    (hsa : entryScore a.trigger q = some sa) (hsb : entryScore b.trigger q = some sb)
    (hgt : sa > sb) : i < j := by
  have hp := search_pairwise S store q
  rw [List.pairwise_iff_getElem] at hp
  obtain ⟨hi, hai⟩ := List.getElem?_eq_some_iff.mp ha
  obtain ⟨hj, hbj⟩ := List.getElem?_eq_some_iff.mp hb
  rcases Nat.lt_trichotomy i j with h | h | h
  · exact h
  · exfalso
    subst h
    rw [hai] at hbj
    rw [hbj, hsb] at hsa
    have := Option.some.inj hsa
    omega
  · exfalso
    obtain ⟨sb', sa', hb', ha', hord⟩ := hp j i hj hi h
    rw [hbj, hsb] at hb'
    rw [hai, hsa] at ha'
    have e1 := Option.some.inj hb'
    have e2 := Option.some.inj ha'
    omega

/-- C11: whatever the store holds, `search` with the empty query returns the
empty sequence. -/
theorem search_empty_query (S : StdSort) (store : List EmojiEntry) :
    search S store [] = [] ∧ search S store (ascii "") = [] := by
  constructor <;> rfl

/-- C12: in the result of `search` for the query `smile`, an entry with trigger
`smile` (score 341) stands before every entry with trigger `awesome_smile`
(score 38). -/
theorem search_smile_before_awesome_smile (S : StdSort) (store : List EmojiEntry)
    (i j : Nat) (a b : EmojiEntry)
    (ha : (search S store (ascii "smile"))[i]? = some a)
    (hb : (search S store (ascii "smile"))[j]? = some b)
    (hat : a.trigger = ascii "smile") (hbt : b.trigger = ascii "awesome_smile") :
    i < j
    ∧ entryScore (ascii "smile") (ascii "smile") = some 341
    ∧ entryScore (ascii "awesome_smile") (ascii "smile") = some 38 := by
  have h1 : entryScore (ascii "smile") (ascii "smile") = some 341 := by decide
  have h2 : entryScore (ascii "awesome_smile") (ascii "smile") = some 38 := by decide
  refine ⟨?_, h1, h2⟩
  exact search_index_lt_of_score_gt S store (ascii "smile") i j a b 341 38 ha hb
    (by rw [hat]; exact h1) (by rw [hbt]; exact h2) (by decide)

theorem search_smile_before_awesome_smile_witness :
    (search insertionStdSort
        [⟨ascii "awesome_smile", [1]⟩, ⟨ascii "smile", [2]⟩, ⟨ascii "awesome_smile", [3]⟩]
        (ascii "smile"))[0]? = some ⟨ascii "smile", [2]⟩
    ∧ (search insertionStdSort
        [⟨ascii "awesome_smile", [1]⟩, ⟨ascii "smile", [2]⟩, ⟨ascii "awesome_smile", [3]⟩]
        (ascii "smile"))[2]? = some ⟨ascii "awesome_smile", [3]⟩
    ∧ (⟨ascii "smile", [2]⟩ : EmojiEntry).trigger = ascii "smile"
    ∧ (⟨ascii "awesome_smile", [3]⟩ : EmojiEntry).trigger = ascii "awesome_smile"
    ∧ (0 < 2
      ∧ entryScore (ascii "smile") (ascii "smile") = some 341
      ∧ entryScore (ascii "awesome_smile") (ascii "smile") = some 38) :=
  ⟨by decide, by decide, rfl, rfl,
    search_smile_before_awesome_smile insertionStdSort
      [⟨ascii "awesome_smile", [1]⟩, ⟨ascii "smile", [2]⟩, ⟨ascii "awesome_smile", [3]⟩]
      0 2 ⟨ascii "smile", [2]⟩ ⟨ascii "awesome_smile", [3]⟩ (by decide) (by decide) rfl rfl⟩

/-- C19: the comparison given to `std::sort` is a strict weak ordering: no
element is before itself, being before is transitive, and being incomparable,
which means having the same score and the same trigger length, is transitive. -/
theorem comp_strict_weak_order :
    (∀ a : EmojiEntryFuzzy, comp a a = false)
    ∧ (∀ a b c : EmojiEntryFuzzy, comp a b = true → comp b c = true → comp a c = true)
    ∧ (∀ a b : EmojiEntryFuzzy, (comp a b = false ∧ comp b a = false) ↔
        (a.score = b.score ∧ a.entry.trigger.length = b.entry.trigger.length))
    ∧ (∀ a b c : EmojiEntryFuzzy, (comp a b = false ∧ comp b a = false) →
        (comp b c = false ∧ comp c b = false) → (comp a c = false ∧ comp c a = false))
    ∧ (∀ a b : EmojiEntryFuzzy, comp a b = true ↔
        (a.score > b.score ∨ (a.score = b.score ∧
          a.entry.trigger.length < b.entry.trigger.length))) := by
  have hlt : ∀ a b : EmojiEntryFuzzy, comp a b = true ↔
      (a.score > b.score ∨ (a.score = b.score ∧
        a.entry.trigger.length < b.entry.trigger.length)) := by
    intro a b
    unfold comp
    by_cases h : a.score = b.score
    · simp [h]
    · simp only [ne_eq, h, not_false_eq_true, if_true, decide_eq_true_eq, false_and, or_false]
  have hinc : ∀ a b : EmojiEntryFuzzy, (comp a b = false ∧ comp b a = false) ↔
      (a.score = b.score ∧ a.entry.trigger.length = b.entry.trigger.length) := by
    intro a b
    rw [comp_eq_false_iff, comp_eq_false_iff]
    constructor
    · rintro ⟨h1, h2⟩
      omega
    · rintro ⟨h1, h2⟩
      omega
  refine ⟨?_, ?_, hinc, ?_, hlt⟩
  · intro a
    rw [comp_eq_false_iff]
    right
    exact ⟨rfl, le_refl _⟩
  · intro a b c hab hbc
    rw [hlt] at hab hbc ⊢
    omega
  · intro a b c hab hbc
    rw [hinc] at hab hbc ⊢
    omega

/-- C20: an exact match is not always ranked first: for the query `ab` the
trigger `ab` scores 167 and the longer trigger `a_b` scores 195, so in the
result for a store that holds both the entry `a_b` stands before the entry `ab`,
whose trigger equals the query. -/
theorem exact_match_not_always_first (S : StdSort) :
    entryScore (ascii "ab") (ascii "ab") = some 167
    ∧ entryScore (ascii "a_b") (ascii "ab") = some 195
    ∧ search S [⟨ascii "ab", [1]⟩, ⟨ascii "a_b", [2]⟩] (ascii "ab")
        = [⟨ascii "a_b", [2]⟩, ⟨ascii "ab", [1]⟩]
    ∧ ∃ (store : List EmojiEntry) (q : Str) (i j : Nat) (a b : EmojiEntry),
        q ≠ [] ∧ (search S store q)[i]? = some a ∧ (search S store q)[j]? = some b
        ∧ i < j ∧ b.trigger = q ∧ q.length < a.trigger.length := by
  have h1 : entryScore (ascii "ab") (ascii "ab") = some 167 := by decide
  have h2 : entryScore (ascii "a_b") (ascii "ab") = some 195 := by decide
  have hres : search S [⟨ascii "ab", [1]⟩, ⟨ascii "a_b", [2]⟩] (ascii "ab")
      = [⟨ascii "a_b", [2]⟩, ⟨ascii "ab", [1]⟩] := by
    have hperm := search_perm_filter S [⟨ascii "ab", [1]⟩, ⟨ascii "a_b", [2]⟩] (ascii "ab")
    have hf : ([⟨ascii "ab", [1]⟩, ⟨ascii "a_b", [2]⟩] : List EmojiEntry).filter
        (fun e => !(ascii "ab").isEmpty && isMatch e.trigger (ascii "ab"))
        = [⟨ascii "ab", [1]⟩, ⟨ascii "a_b", [2]⟩] := by decide
    rw [hf] at hperm
    have hp := search_pairwise S [⟨ascii "ab", [1]⟩, ⟨ascii "a_b", [2]⟩] (ascii "ab")
    generalize search S [⟨ascii "ab", [1]⟩, ⟨ascii "a_b", [2]⟩] (ascii "ab") = l at hperm hp
    have hlen := hperm.length_eq
    match l, hlen with
    | [x, y], _ =>
      have hx : x ∈ ([⟨ascii "ab", [1]⟩, ⟨ascii "a_b", [2]⟩] : List EmojiEntry) :=
        hperm.mem_iff.mp (List.mem_cons_self _ _)
      have hy : y ∈ ([⟨ascii "ab", [1]⟩, ⟨ascii "a_b", [2]⟩] : List EmojiEntry) :=
        hperm.mem_iff.mp (List.mem_cons_of_mem _ (List.mem_cons_self _ _))
      have hnd : ([x, y] : List EmojiEntry).Nodup := hperm.nodup_iff.mpr (by decide)
      have hxy : x ≠ y := by
        intro e
        rw [e] at hnd
        simp at hnd
      have hr : RankedBefore (ascii "ab") x y := by
        rw [List.pairwise_cons] at hp
        exact hp.1 y (List.mem_cons_self _ _)
      simp only [List.mem_cons, List.mem_singleton, List.not_mem_nil, or_false] at hx hy
      rcases hx with hx | hx <;> rcases hy with hy | hy
      · exact absurd (hx.trans hy.symm) hxy
      · exfalso
        obtain ⟨sa, sb, hsa, hsb, hord⟩ := hr
        rw [hx] at hsa
        rw [hy] at hsb
        rw [h1] at hsa
        rw [h2] at hsb
        have e1 := Option.some.inj hsa
        have e2 := Option.some.inj hsb
        omega
      · rw [hx, hy]
      · exact absurd (hx.trans hy.symm) hxy
  refine ⟨h1, h2, hres, ?_⟩
  refine ⟨[⟨ascii "ab", [1]⟩, ⟨ascii "a_b", [2]⟩], ascii "ab", 0, 1,
    ⟨ascii "a_b", [2]⟩, ⟨ascii "ab", [1]⟩, by decide, ?_, ?_, by decide, rfl, by decide⟩
  · rw [hres]; rfl
  · rw [hres]; rfl

/-! ## Longer triggers -/

theorem recordEntries_recordWithOutput (uninit : Nat → Nat) (hex : Str) :
    recordEntries uninit (recordWithOutput hex)
      = [{ trigger := ascii "x", output := parseHexToEmoji uninit hex }] := by
  have k1 : ¬ ascii "code_points" = ascii "shortname" := by decide
  have k2 : ¬ ascii "code_points" = ascii "shortname_alternates" := by decide
  have k3 : ¬ ascii "code_points" = ascii "ascii" := by decide
  have k4 : ¬ ascii "shortname" = ascii "shortname_alternates" := by decide
  have k5 : ¬ ascii "shortname" = ascii "ascii" := by decide
  have hout : recordOutput (recordWithOutput hex) = some hex := by
    simp [recordOutput, recordWithOutput, atKey]
  unfold recordWithOutput at hout ⊢
  rw [recordEntries_of_output _ _ _ hout]
  have htr : recordTriggers [
      (ascii "code_points", .object [(ascii "output", .string hex)]),
      (ascii "shortname", .string (ascii "x"))] = [ascii "x"] := by
    simp [recordTriggers, atKey, stringField, stringArrayField, k1, k2, k3, k4, k5]
  rw [htr]
  rfl

/-- C17: for a document with an object root, the store after `load` is the store
before it followed by the entries of the records, record after record in
document order; the old entries stay as a prefix, the size grows by the number
of entries emitted, and two records with the same trigger both keep their
entry. -/
theorem load_appends (uninit : Nat → Nat → Nat) (fields : List (Str × Json))
    (store : List EmojiEntry) :
    load uninit (some (.object fields)) store
      = (true, store ++ documentEntries uninit 0 fields)
    ∧ (∀ (u : Nat → Nat) (value : Json), recordEntries u value = processRecord u value [])
    ∧ store <+: (load uninit (some (.object fields)) store).2
    ∧ size (load uninit (some (.object fields)) store).2
        = size store + (documentEntries uninit 0 fields).length
    ∧ load uninit (some (.object [(ascii "k1", recordWithOutput (ascii "41")),
          (ascii "k2", recordWithOutput (ascii "42"))])) store
        = (true, store ++ [{ trigger := ascii "x", output := [0x41] },
                           { trigger := ascii "x", output := [0x42] }]) := by
  have hl := load_object uninit fields store
  refine ⟨hl, ?_, ?_, ?_, ?_⟩
  · intro u value
    rw [processRecord_eq, List.nil_append]
  · rw [hl]
    exact List.prefix_append _ _
  · rw [hl]
    simp [size]
  · rw [load_object]
    simp only [documentEntries, recordEntries_recordWithOutput, List.append_nil,
      List.singleton_append]
    rw [parseHexToEmoji_spelling (uninit 0) (ascii "41") 0x41 (by decide),
      parseHexToEmoji_spelling (uninit (0 + 1)) (ascii "42") 0x42 (by decide)]
    rfl

/-! ## Tokens out of range and tokens without digits -/

theorem intercalate_cons_cons_any (seg seg' : Str) (segs : List Str) :
    List.intercalate [45] (seg :: seg' :: segs)
      = seg ++ 45 :: List.intercalate [45] (seg' :: segs) := by
  simp [List.intercalate, List.intersperse]

/-- The loop of `parseHexToEmoji` on segments joined with `-`, the last of which
is not empty, handles the segments one after the other. -/
theorem parseLoop_segments (uninit : Nat → Nat) : ∀ (segs : List Str),
    (∀ seg ∈ segs, ∀ c ∈ seg, c ≠ 45) → segs.getLast? ≠ some [] →
    ∀ (fuel n : Nat) (result : Str), (List.intercalate [45] segs).length ≤ fuel →
      parseLoop uninit fuel n (List.intercalate [45] segs) result
        = result ++ decodeSegments uninit n segs := by
  intro segs
  induction segs with
  | nil =>
    intro _ _ fuel n result _
    simp [List.intercalate, parseLoop_nil, decodeSegments]
  | cons seg rest ih =>
    intro hnd hlast fuel n result hfuel
    have hseg := hnd seg (List.mem_cons_self _ _)
    cases rest with
    | nil =>
      rw [intercalate_single] at hfuel ⊢
      have hne : seg ≠ [] := by
        intro e
        apply hlast
        rw [e]
        rfl
      obtain ⟨c, cs, hcs⟩ : ∃ c cs, seg = c :: cs := by
        cases seg with
        | nil => exact absurd rfl hne
        | cons c cs => exact ⟨c, cs, rfl⟩
      cases fuel with
      | zero => rw [hcs] at hfuel; simp at hfuel
      | succ fuel =>
        have hg : getline seg = some (seg, []) := by
          rw [hcs, getline, ← hcs, readSegment_no_dash seg hseg]
        simp only [parseLoop, hg, parseLoop_nil, decodeSegments, List.append_nil]
    | cons seg' rest' =>
      rw [intercalate_cons_cons_any] at hfuel ⊢
      cases fuel with
      | zero => simp at hfuel
      | succ fuel =>
        have hg : getline (seg ++ 45 :: List.intercalate [45] (seg' :: rest'))
            = some (seg, List.intercalate [45] (seg' :: rest')) := by
          rw [← readSegment_dash seg _ hseg]
          cases seg <;> rfl
        have hlast' : (seg' :: rest').getLast? ≠ some [] := by
          rw [List.getLast?_cons_cons] at hlast
          exact hlast
        simp only [parseLoop, hg, decodeSegments]
        rw [ih (fun s hs => hnd s (List.mem_cons_of_mem _ hs)) hlast' fuel (n + 1) _
          (by simp at hfuel; omega)]
        simp [decodeSegments]

theorem parseHexToEmoji_segments (uninit : Nat → Nat) (segs : List Str)
    (hnd : ∀ seg ∈ segs, ∀ c ∈ seg, c ≠ 45) (hlast : segs.getLast? ≠ some []) :
    parseHexToEmoji uninit (List.intercalate [45] segs) = decodeSegments uninit 0 segs := by
  unfold parseHexToEmoji
  rw [parseLoop_segments uninit segs hnd hlast _ 0 [] (le_refl _)]
  exact List.nil_append _

theorem extractHex_hexToken (tok : Str) (cp0 : Nat) (h : isHexToken tok = true) :
    extractHex tok cp0 = if hexValue tok > 0xFFFFFFFF then 0xFFFFFFFF else hexValue tok := by
  unfold isHexToken at h
  obtain ⟨hne, hd⟩ := of_decide_eq_true h
  cases tok with
  | nil => exact absurd rfl hne
  | cons c cs =>
    have hc := hexDigit_isSome_range (hd c (List.mem_cons_self _ _))
    have hsp : isSpace c = false := by
      unfold isSpace
      rw [decide_eq_false_iff_not]
      omega
    have hrun := hexRun_digits (c :: cs) hd 0
    have hpre : dropHexPrefix (c :: cs) = c :: cs := by
      unfold dropHexPrefix
      split
      · rename_i cs' heq
        simp only [List.cons.injEq] at heq
        have := hexDigit_isSome_range (hd 120 (by rw [heq.2]; simp))
        omega
      · rename_i cs' heq
        simp only [List.cons.injEq] at heq
        have := hexDigit_isSome_range (hd 88 (by rw [heq.2]; simp))
        omega
      · rfl
    have hsign : ¬ (c = 45 ∨ c = 43) := by omega
    have hneg : ¬ (c = 45) := by omega
    unfold extractHex
    rw [List.dropWhile_cons_of_neg (by simp [hsp])]
    simp only [if_neg hsign, hpre, hrun, zero_mul, zero_add, decide_eq_true_eq, if_neg hneg]

theorem codepointToUTF8_of_gt (cp : Nat) (h : 0x10FFFF < cp) : codepointToUTF8 cp = [] := by
  unfold codepointToUTF8
  rw [if_neg (by omega), if_neg (by omega), if_neg (by omega), if_neg (by omega)]

theorem codepointToUTF8_length (cp : Nat) :
    (codepointToUTF8 cp).length
      = if cp ≤ 0x7F then 1 else if cp ≤ 0x7FF then 2 else if cp ≤ 0xFFFF then 3
        else if cp ≤ 0x10FFFF then 4 else 0 := by
  unfold codepointToUTF8
  split
  · rfl
  split
  · rfl
  split
  · rfl
  split <;> rfl

theorem codepointToUTF8_extractHex_hexToken (tok : Str) (cp0 : Nat)
    (h : isHexToken tok = true) :
    codepointToUTF8 (extractHex tok cp0)
      = if hexValue tok ≤ 0x10FFFF then codepointToUTF8 (hexValue tok) else [] := by
  rw [extractHex_hexToken tok cp0 h]
  by_cases h1 : hexValue tok > 0xFFFFFFFF
  · rw [if_pos h1, if_neg (by omega)]
    exact codepointToUTF8_of_gt _ (by norm_num)
  · rw [if_neg h1]
    by_cases h2 : hexValue tok ≤ 0x10FFFF
    · rw [if_pos h2]
    · rw [if_neg h2]
      exact codepointToUTF8_of_gt _ (by omega)

theorem decodeSegments_hexTokens (uninit : Nat → Nat) : ∀ (tokens : List Str) (n : Nat),
    (∀ tok ∈ tokens, isHexToken tok = true) →
    decodeSegments uninit n tokens
      = (((tokens.map hexValue).filter (fun v => decide (v ≤ 0x10FFFF))).map
          codepointToUTF8).flatten := by
  intro tokens
  induction tokens with
  | nil => intro n _; rfl
  | cons tok rest ih =>
    intro n h
    have htok := h tok (List.mem_cons_self _ _)
    simp only [decodeSegments, List.map_cons, List.filter_cons]
    rw [codepointToUTF8_extractHex_hexToken tok _ htok,
      ih (n + 1) (fun t ht => h t (List.mem_cons_of_mem _ ht))]
    by_cases hv : hexValue tok ≤ 0x10FFFF
    · simp [hv]
    · simp [hv]

theorem hexToken_no_dash {tok : Str} (h : isHexToken tok = true) : ∀ c ∈ tok, c ≠ 45 := by
  unfold isHexToken at h
  obtain ⟨_, hd⟩ := of_decide_eq_true h
  intro c hc
  have := hexDigit_isSome_range (hd c hc)
  omega

theorem hexTokens_getLast (tokens : List Str) (h : ∀ tok ∈ tokens, isHexToken tok = true) :
    tokens.getLast? ≠ some [] := by
  intro hl
  have hmem : ([] : Str) ∈ tokens := List.mem_of_getLast?_eq_some hl
  have := h [] hmem
  simp [isHexToken] at this

/-- C13: `codepointToUTF8` emits 1, 2, 3 or 4 bytes for values up to `0x7F`,
`0x7FF`, `0xFFFF`, `0x10FFFF` and no byte for a greater value; so in
`parseHexToEmoji` a token of hexadecimal digits whose value is above `0x10FFFF`
adds nothing, and the bytes of the other tokens follow each other in order. -/
theorem out_of_range_token_emits_nothing (uninit : Nat → Nat) (tokens : List Str)
    (htok : ∀ tok ∈ tokens, isHexToken tok = true) :
    (∀ cp : Nat, (codepointToUTF8 cp).length
      = if cp ≤ 0x7F then 1 else if cp ≤ 0x7FF then 2 else if cp ≤ 0xFFFF then 3
        else if cp ≤ 0x10FFFF then 4 else 0)
    ∧ (∀ cp : Nat, 0x10FFFF < cp → codepointToUTF8 cp = [])
    ∧ parseHexToEmoji uninit (List.intercalate [45] tokens)
      = (((tokens.map hexValue).filter (fun v => decide (v ≤ 0x10FFFF))).map
          codepointToUTF8).flatten
    ∧ parseHexToEmoji uninit (ascii "41-110000-42-123456789") = [0x41, 0x42] := by
  refine ⟨codepointToUTF8_length, codepointToUTF8_of_gt, ?_, ?_⟩
  · rw [parseHexToEmoji_segments uninit tokens (fun tok ht => hexToken_no_dash (htok tok ht))
      (hexTokens_getLast tokens htok)]
    exact decodeSegments_hexTokens uninit tokens 0 htok
  · have h4 : List.intercalate [45] [ascii "41", ascii "110000", ascii "42", ascii "123456789"]
        = ascii "41-110000-42-123456789" := by decide
    have hall : ∀ tok ∈ [ascii "41", ascii "110000", ascii "42", ascii "123456789"],
        isHexToken tok = true := by decide
    rw [← h4, parseHexToEmoji_segments uninit _ (fun tok ht => hexToken_no_dash (hall tok ht))
      (hexTokens_getLast _ hall), decodeSegments_hexTokens uninit _ 0 hall]
    decide

theorem out_of_range_token_emits_nothing_witness :
    (∀ tok ∈ [ascii "1F600", ascii "FFFFFF", ascii "41"], isHexToken tok = true)
    ∧ ((∀ cp : Nat, (codepointToUTF8 cp).length
        = if cp ≤ 0x7F then 1 else if cp ≤ 0x7FF then 2 else if cp ≤ 0xFFFF then 3
          else if cp ≤ 0x10FFFF then 4 else 0)
      ∧ (∀ cp : Nat, 0x10FFFF < cp → codepointToUTF8 cp = [])
      ∧ parseHexToEmoji (fun _ => 0)
          (List.intercalate [45] [ascii "1F600", ascii "FFFFFF", ascii "41"])
        = ((([ascii "1F600", ascii "FFFFFF", ascii "41"].map hexValue).filter
            (fun v => decide (v ≤ 0x10FFFF))).map codepointToUTF8).flatten
      ∧ parseHexToEmoji (fun _ => 0) (ascii "41-110000-42-123456789") = [0x41, 0x42]) :=
  ⟨by decide,
    out_of_range_token_emits_nothing (fun _ => 0)
      [ascii "1F600", ascii "FFFFFF", ascii "41"] (by decide)⟩

theorem boundaryChecked_eq (t : Str) (i : Nat) (hi : i < t.length) :
    boundaryChecked t i
      = some (decide (i = 0 ∨ t.getD (i - 1) 0 = 95 ∨ t.getD (i - 1) 0 = 45)) := by
  unfold boundaryChecked charAt
  by_cases h0 : i = 0
  · simp [h0]
  · have hi1 : i - 1 < t.length := by omega
    rw [if_neg h0, List.getElem?_eq_getElem hi1, List.getD_eq_getElem _ _ hi1]
    simp only
    by_cases h95 : t[i - 1] = 95
    · simp [h95]
    · simp [h0, h95]

theorem scanBodyChecked_eq (t q : Str) (i : Nat) (st : ScanState) (hi : i < t.length)
    (hk : st.queryIndex < q.length) :
    scanBodyChecked t q i st = some (scanBody t q i st) := by
  unfold scanBodyChecked scanBody charAt
  rw [List.getElem?_eq_getElem hi, List.getElem?_eq_getElem hk, boundaryChecked_eq t i hi,
    List.getD_eq_getElem _ _ hi, List.getD_eq_getElem _ _ hk]
  simp only
  split <;> rfl

theorem scanLoopChecked_eq (t q : Str) : ∀ (fuel i : Nat) (st : ScanState),
    scanLoopChecked t q fuel i st = some (scanLoop t q fuel i st) := by
  intro fuel
  induction fuel with
  | zero => intro i st; rfl
  | succ fuel ih =>
    intro i st
    unfold scanLoopChecked scanLoop
    split
    · rename_i h
      rw [scanBodyChecked_eq t q i st h.1 h.2]
      exact ih _ _
    · rfl

theorem collectChecked_eq (q : Str) : ∀ (l : List EmojiEntry) (acc : List EmojiEntryFuzzy),
    collectChecked q l acc = some (collect q l acc) := by
  intro l
  induction l with
  | nil => intro acc; rfl
  | cons e rest ih =>
    intro acc
    unfold collectChecked collect entryScore scanEntry
    rw [scanLoopChecked_eq]
    simp only
    split
    · exact ih _
    · exact ih _

/-- C14: `search` never fails: with every character access checked, it returns
a result for every store and every query, the result of `search`; inside the
loop `trigger[i]` and `prefix[queryIndex]` are read with `i` and `queryIndex`
below the lengths, and `trigger[i - 1]` only when `i` is not `0`; the loop needs
no more iterations than the trigger has characters. -/
theorem search_accesses_in_bounds (S : StdSort) (store : List EmojiEntry) (q : Str) :
    searchChecked S store q = some (search S store q)
    ∧ (∀ (t : Str) (fuel i : Nat) (st : ScanState),
        scanLoopChecked t q fuel i st = some (scanLoop t q fuel i st))
    ∧ (∀ (t : Str) (fuel i : Nat) (st : ScanState), t.length - i ≤ fuel →
        scanLoop t q fuel i st = scanLoop t q (t.length - i) i st)
    ∧ searchChecked S [⟨[], [1]⟩, ⟨ascii "a", [2]⟩] (ascii "abc") = some []
    ∧ searchChecked S store [] = some [] := by
  have hmain : ∀ (l : List EmojiEntry) (p : Str),
      searchChecked S l p = some (search S l p) := by
    intro l p
    unfold searchChecked search
    split
    · rfl
    · rw [collectChecked_eq]
  refine ⟨hmain store q, fun t => scanLoopChecked_eq t q, fun t => scanLoop_fuel t q, ?_, rfl⟩
  rw [hmain]
  have hperm := search_perm_filter S [⟨[], [1]⟩, ⟨ascii "a", [2]⟩] (ascii "abc")
  have hf : ([⟨[], [1]⟩, ⟨ascii "a", [2]⟩] : List EmojiEntry).filter
      (fun e => !(ascii "abc").isEmpty && isMatch e.trigger (ascii "abc")) = [] := by decide
  rw [hf] at hperm
  rw [hperm.eq_nil]

end Emoji
